import Mathlib

/-
Verification of the secure file-erasing core (Gutmann-style 35-pass wipe):
a shallow embedding of write_data, random_pass, pattern_pass and
spc_fd_wipe from src/secure_file_erasing.c over a deterministic
environment of system-call outcomes, together with theorems about the
pass plan, the per-pass write protocol and the error behaviour.
-/

set_option maxHeartbeats 4000000

/-- Maximum byte count of a single write system call, the value of
SSIZE_MAX on a 64-bit platform, used by write_data to cap each request. -/
def SSIZE_MAX : Nat := 2 ^ 63 - 1

/-- Size of the scratch buffer, SPC_WIPE_BUFSIZE in the source. -/
def SPC_WIPE_BUFSIZE : Nat := 4096

/-- Outcome of one write system call: `ok k` means the call reported `k`
bytes written, `eintr` models an EINTR interruption, `err` models any
other failure (write returned -1 with errno different from EINTR). -/
inductive WrRes where
  | ok (k : Nat)
  | eintr
  | err
deriving DecidableEq, Repr

/-- Observable events of an execution: the fstat size query, a seek to
offset 0 (with its success flag), one write system call (recording the
file offset it was issued at, the bytes handed to the kernel, the
requested count, and the outcome), and an fsync. -/
inductive Ev where
  | stat
  | seek (ok : Bool)
  | write (off : Nat) (data : List Nat) (req : Nat) (res : WrRes)
  | flush
deriving DecidableEq, Repr

/-- Execution state: the file content (byte stored at each offset), the
current file offset, one call counter per kind of system call (used to
index the environment's outcome streams), and the event log. -/
structure St where
  content : Nat → Nat
  pos : Nat
  sIdx : Nat
  wIdx : Nat
  fIdx : Nat
  rIdx : Nat
  log : List Ev

/-- Deterministic environment fixing every external outcome: the fstat
result (none models a failing fstat), the outcome of the i-th seek,
write and fsync calls, and the bytes produced by the i-th spc_rand call
for a requested length. -/
structure SysEnv where
  statSize : Option Nat
  seekOk : Nat → Bool
  write : Nat → Nat → WrRes
  flushOk : Nat → Bool
  rand : Nat → Nat → List Nat

/-- Well-formed write outcomes report at most the requested byte count,
as POSIX guarantees for write. -/
def WFw (w : Nat → Nat → WrRes) : Prop :=
  ∀ i n k, w i n = WrRes.ok k → k ≤ n

/-- Well-formed environment: write outcomes report at most the requested
count, and spc_rand yields exactly the requested number of bytes. -/
def SysEnv.WF (env : SysEnv) : Prop :=
  WFw env.write ∧ ∀ i n, (env.rand i n).length = n

/-- Overwrite the file content with `data` starting at offset `p`. -/
def writeBytes (c : Nat → Nat) (p : Nat) (data : List Nat) : Nat → Nat :=
  fun i => if p ≤ i ∧ i < p + data.length then data.getD (i - p) 0 else c i

/-- Record the fstat size query in the log. -/
def statStep (st : St) : St := { st with log := st.log ++ [Ev.stat] }

/-- Successful lseek to offset 0: position moves to 0. -/
def seekOkStep (st : St) : St :=
  { st with pos := 0, sIdx := st.sIdx + 1, log := st.log ++ [Ev.seek true] }

/-- Failed lseek (or one landing at a nonzero offset): position is kept. -/
def seekFailStep (st : St) : St :=
  { st with sIdx := st.sIdx + 1, log := st.log ++ [Ev.seek false] }

/-- An fsync call; its outcome is not recorded anywhere, as the source
discards fsync's return value. -/
def flushStep (st : St) : St :=
  { st with fIdx := st.fIdx + 1, log := st.log ++ [Ev.flush] }

/-- State change of a write call that reported `k` bytes written: the
first `k` handed bytes land in the file at the current offset, which
advances by `k`. -/
def wrOkStep (st : St) (data : List Nat) (towrite k : Nat) : St :=
  { st with
    content := writeBytes st.content st.pos (data.take k)
    pos := st.pos + k
    wIdx := st.wIdx + 1
    log := st.log ++ [Ev.write st.pos data towrite (WrRes.ok k)] }

/-- State change of a write call that failed (EINTR or a real error):
content and offset are untouched. -/
def wrFailStep (st : St) (data : List Nat) (towrite : Nat) (r : WrRes) : St :=
  { st with wIdx := st.wIdx + 1
            log := st.log ++ [Ev.write st.pos data towrite r] }

/-- Loop of write_data, mirroring the do/while loop of the source:
`written` bytes of the request are already written; each iteration issues
a write of `min (nbytes - written) SSIZE_MAX` bytes taken from `buf` at
offset `written`, adds whatever the call reports as written, retries on
EINTR, and fails on any other error. The loop is fueled because an
environment may answer EINTR forever; `none` models nontermination. -/
def write_data_go (w : Nat → Nat → WrRes) (buf : List Nat) (nbytes : Nat) :
    Nat → Nat → St → Option (Bool × St)
  | 0, _, _ => none
  | fuel + 1, written, st =>
    let towrite := min (nbytes - written) SSIZE_MAX
    let data := (buf.drop written).take towrite
    match w st.wIdx towrite with
    | WrRes.ok k =>
      if written + k < nbytes then
        write_data_go w buf nbytes fuel (written + k) (wrOkStep st data towrite k)
      else some (true, wrOkStep st data towrite k)
    | WrRes.eintr =>
      if written < nbytes then
        write_data_go w buf nbytes fuel written (wrFailStep st data towrite WrRes.eintr)
      else some (true, wrFailStep st data towrite WrRes.eintr)
    | WrRes.err => some (false, wrFailStep st data towrite WrRes.err)

/-- Reliable writer write_data from the source: write `nbytes` bytes of
`buf`, tolerating short writes and EINTR; `true` models the source's
return value 1 and `false` its return value 0. -/
def write_data (w : Nat → Nat → WrRes) (buf : List Nat) (nbytes : Nat)
    (st : St) (fuel : Nat) : Option (Bool × St) :=
  write_data_go w buf nbytes fuel 0 st

/-- Chunk loop of pattern_pass: while bytes remain, write
`min remaining bufsz` bytes of the prepared pattern buffer through
write_data. Fueled: with a zero `bufsz` the source's loop would make no
progress, which the fuel models as `none`. -/
def pattern_loop (w : Nat → Nat → WrRes) (wdfuel : Nat) (buf : List Nat)
    (bufsz : Nat) : Nat → Nat → St → Option (Bool × St)
  | 0, _, _ => none
  | fuel + 1, filesz, st =>
    if filesz = 0 then some (true, st)
    else
      match write_data w buf (min filesz bufsz) st wdfuel with
      | none => none
      | some (false, st') => some (false, st')
      | some (true, st') =>
        pattern_loop w wdfuel buf bufsz fuel (filesz - min filesz bufsz) st'

/-- Chunk loop of random_pass: while bytes remain, fill the scratch
buffer with `min remaining SPC_WIPE_BUFSIZE` fresh bytes from the random
source and write them through write_data. -/
def random_loop (w : Nat → Nat → WrRes) (rand : Nat → Nat → List Nat)
    (wdfuel : Nat) : Nat → Nat → St → Option (Bool × St)
  | 0, _, _ => none
  | fuel + 1, nbytes, st =>
    if nbytes = 0 then some (true, st)
    else
      match write_data w (rand st.rIdx (min nbytes SPC_WIPE_BUFSIZE))
          (min nbytes SPC_WIPE_BUFSIZE) { st with rIdx := st.rIdx + 1 } wdfuel with
      | none => none
      | some (false, st') => some (false, st')
      | some (true, st') =>
        random_loop w rand wdfuel fuel (nbytes - min nbytes SPC_WIPE_BUFSIZE) st'

/-- random_pass from the source: seek to 0 (fail with -1 if the seek does
not land at 0), write `nbytes` random bytes in chunks, fsync (outcome
discarded), return 0. -/
def random_pass (env : SysEnv) (fuel : Nat) (nbytes : Nat) (st : St) :
    Option (Int × St) :=
  if env.seekOk st.sIdx then
    match random_loop env.write env.rand fuel fuel nbytes (seekOkStep st) with
    | none => none
    | some (false, st') => some (-1, st')
    | some (true, st') => some (0, flushStep st')
  else some (-1, seekFailStep st)

/-- pattern_pass from the source: reject a zero bufsz (before any seek,
as the source's short-circuit does), seek to 0, write `filesz` bytes of
the prepared pattern buffer in chunks, fsync (outcome discarded),
return 0. -/
def pattern_pass (env : SysEnv) (fuel : Nat) (buf : List Nat) (bufsz : Nat)
    (filesz : Nat) (st : St) : Option (Int × St) :=
  if bufsz = 0 then some (-1, st)
  else if env.seekOk st.sIdx then
    match pattern_loop env.write fuel buf bufsz fuel filesz (seekOkStep st) with
    | none => none
    | some (false, st') => some (-1, st')
    | some (true, st') => some (0, flushStep st')
  else some (-1, seekFailStep st)

/-- Static table single_pats from the source. -/
def single_pats : List Nat :=
  [0x00, 0x11, 0x22, 0x33, 0x44, 0x55, 0x66, 0x77,
   0x88, 0x99, 0xaa, 0xbb, 0xcc, 0xdd, 0xee, 0xff]

/-- Static table triple_pats from the source. -/
def triple_pats : List (List Nat) :=
  [[0x92, 0x49, 0x24], [0x49, 0x24, 0x92], [0x24, 0x92, 0x49],
   [0x6d, 0xb6, 0xdb], [0xb6, 0xdb, 0x6d], [0xdb, 0x6d, 0xb6]]

/-- Scratch buffer after `memset(buf, b, sizeof(buf))`. -/
def memsetBuf (b : Nat) : List Nat := List.replicate SPC_WIPE_BUFSIZE b

/-- Scratch buffer after tiling pattern `p` `count` times, the memcpy
loop of spc_fd_wipe laying `count` copies of `p` end to end. -/
def tileBuf (p : List Nat) (count : Nat) : List Nat :=
  (List.replicate count p).flatten

/-- Buffer the orchestrator prepares for pattern `p`: `sizeof(buf) / L`
copies of the pattern tiled end to end (for a 1-byte pattern this
coincides with the memset the source uses). -/
def patBuf (p : List Nat) : List Nat := tileBuf p (SPC_WIPE_BUFSIZE / p.length)

/-- Byte count the orchestrator passes to pattern_pass for pattern `p`:
`patternsz * count` in the source. -/
def patBufsz (p : List Nat) : Nat := p.length * (SPC_WIPE_BUFSIZE / p.length)

/-- Sequence a pass result with the rest of the wipe, the source's idiom
`if (pass(...) == -1) return -1;`. -/
def seqPass (r : Option (Int × St)) (k : St → Option (Int × St)) :
    Option (Int × St) :=
  match r with
  | none => none
  | some (i, st) => if i = -1 then some (-1, st) else k st

/-- One single-byte pattern pass per table entry, the
`for (pass = 0; pass < sizeof(single_pats); pass++)` loop. -/
def singlePasses (env : SysEnv) (fuel sz : Nat) :
    List Nat → St → Option (Int × St)
  | [], st => some (0, st)
  | b :: bs, st =>
    seqPass (pattern_pass env fuel (memsetBuf b) SPC_WIPE_BUFSIZE sz st)
      (fun st1 => singlePasses env fuel sz bs st1)

/-- One 3-byte pattern pass per table entry, the loops over triple_pats. -/
def triplePasses (env : SysEnv) (fuel sz : Nat) :
    List (List Nat) → St → Option (Int × St)
  | [], st => some (0, st)
  | p :: ps, st =>
    seqPass (pattern_pass env fuel (patBuf p) (patBufsz p) sz st)
      (fun st1 => triplePasses env fuel sz ps st1)

/-- spc_fd_wipe from the source: fstat (failure returns -1), empty-file
short-circuit, four random passes, the 0x55 and 0xAA passes, the first
three triple patterns, all sixteen single patterns, all six triple
patterns, four final random passes, each aborting the whole call with -1
on pass failure. -/
def spc_fd_wipe (env : SysEnv) (fuel : Nat) (st : St) : Option (Int × St) :=
  match env.statSize with
  | none => some (-1, statStep st)
  | some sz =>
    if sz = 0 then some (0, statStep st)
    else
      seqPass (random_pass env fuel sz (statStep st)) fun s1 =>
      seqPass (random_pass env fuel sz s1) fun s2 =>
      seqPass (random_pass env fuel sz s2) fun s3 =>
      seqPass (random_pass env fuel sz s3) fun s4 =>
      seqPass (pattern_pass env fuel (memsetBuf (single_pats.getD 5 0))
          SPC_WIPE_BUFSIZE sz s4) fun s5 =>
      seqPass (pattern_pass env fuel (memsetBuf (single_pats.getD 10 0))
          SPC_WIPE_BUFSIZE sz s5) fun s6 =>
      seqPass (triplePasses env fuel sz (triple_pats.take 3) s6) fun s7 =>
      seqPass (singlePasses env fuel sz single_pats s7) fun s8 =>
      seqPass (triplePasses env fuel sz triple_pats s8) fun s9 =>
      seqPass (random_pass env fuel sz s9) fun s10 =>
      seqPass (random_pass env fuel sz s10) fun s11 =>
      seqPass (random_pass env fuel sz s11) fun s12 =>
      seqPass (random_pass env fuel sz s12) fun s13 =>
      some (0, s13)

/-- Pass descriptor: a random-fill pass or a pattern-fill pass with its
repeating byte unit, as the specification's pass plan states them. -/
inductive PassKind where
  | random
  | pattern (p : List Nat)
deriving DecidableEq, Repr

/-- Execute one planned pass: a random pass, or a pattern pass over the
tiled buffer the orchestrator prepares for the pattern. -/
def runPass (env : SysEnv) (fuel sz : Nat) : PassKind → St → Option (Int × St)
  | PassKind.random, st => random_pass env fuel sz st
  | PassKind.pattern p, st =>
    pattern_pass env fuel (patBuf p) (patBufsz p) sz st

/-- Execute a list of planned passes in order, stopping at the first
pass that reports -1. -/
def runPlan (env : SysEnv) (fuel sz : Nat) :
    List PassKind → St → Option (Int × St)
  | [], st => some (0, st)
  | p :: ps, st =>
    seqPass (runPass env fuel sz p st) (fun st1 => runPlan env fuel sz ps st1)

/-- Fixed 35-pass plan exactly as the specification lists it: passes 1-4
random, pass 5 byte 0x55, pass 6 byte 0xAA, passes 7-9 the first three
triple patterns, passes 10-25 the sixteen single-byte values ascending,
passes 26-31 all six triple patterns, passes 32-35 random. -/
def wipePlan : List PassKind :=
  [PassKind.random, PassKind.random, PassKind.random, PassKind.random,
   PassKind.pattern [0x55], PassKind.pattern [0xaa],
   PassKind.pattern [0x92, 0x49, 0x24], PassKind.pattern [0x49, 0x24, 0x92],
   PassKind.pattern [0x24, 0x92, 0x49],
   PassKind.pattern [0x00], PassKind.pattern [0x11], PassKind.pattern [0x22],
   PassKind.pattern [0x33], PassKind.pattern [0x44], PassKind.pattern [0x55],
   PassKind.pattern [0x66], PassKind.pattern [0x77], PassKind.pattern [0x88],
   PassKind.pattern [0x99], PassKind.pattern [0xaa], PassKind.pattern [0xbb],
   PassKind.pattern [0xcc], PassKind.pattern [0xdd], PassKind.pattern [0xee],
   PassKind.pattern [0xff],
   PassKind.pattern [0x92, 0x49, 0x24], PassKind.pattern [0x49, 0x24, 0x92],
   PassKind.pattern [0x24, 0x92, 0x49], PassKind.pattern [0x6d, 0xb6, 0xdb],
   PassKind.pattern [0xb6, 0xdb, 0x6d], PassKind.pattern [0xdb, 0x6d, 0xb6],
   PassKind.random, PassKind.random, PassKind.random, PassKind.random]

/-- Count of ok-reported bytes in a log fragment, the total the kernel
acknowledged as written. -/
def okBytes : List Ev → Nat
  | [] => 0
  | Ev.write _ _ _ (WrRes.ok k) :: es => k + okBytes es
  | _ :: es => okBytes es

/-- Count of fstat events in a log fragment. -/
def statCount : List Ev → Nat
  | [] => 0
  | Ev.stat :: es => statCount es + 1
  | _ :: es => statCount es

/-- Count of seek events in a log fragment. -/
def seekCount : List Ev → Nat
  | [] => 0
  | Ev.seek _ :: es => seekCount es + 1
  | _ :: es => seekCount es

/-- Count of fsync events in a log fragment. -/
def flushCount : List Ev → Nat
  | [] => 0
  | Ev.flush :: es => flushCount es + 1
  | _ :: es => flushCount es

/-- Recognizer for write events. -/
def isWrite : Ev → Bool
  | Ev.write _ _ _ _ => true
  | _ => false

/-- Initial state: an all-zero file at offset 0 with an empty log. -/
def initSt : St :=
  { content := fun _ => 0, pos := 0, sIdx := 0, wIdx := 0, fIdx := 0,
    rIdx := 0, log := [] }

/-- Write outcome stream in which every call fully succeeds. -/
def wHappy : Nat → Nat → WrRes := fun _ n => WrRes.ok n

/-- Environment in which every system call succeeds completely and the
random source yields zero bytes. -/
def envHappy (sz : Nat) : SysEnv :=
  { statSize := some sz, seekOk := fun _ => true, write := wHappy,
    flushOk := fun _ => true, rand := fun _ n => List.replicate n 0 }

/-- Environment whose fstat fails. -/
def envStatFail : SysEnv := { envHappy 0 with statSize := none }

/-- Environment whose every seek fails. -/
def envSeekFail (sz : Nat) : SysEnv :=
  { envHappy sz with seekOk := fun _ => false }

/-- Environment whose first seek succeeds and whose second seek fails. -/
def envSeekFail2 (sz : Nat) : SysEnv :=
  { envHappy sz with seekOk := fun i => i == 0 }

/-- Environment whose every write fails with a non-EINTR error. -/
def envWriteErr (sz : Nat) : SysEnv :=
  { envHappy sz with write := fun _ _ => WrRes.err }

/-! Basic lemmas about buffers and log counters. -/

theorem flatten_replicate_singleton (n : Nat) (b : Nat) :
    (List.replicate n [b]).flatten = List.replicate n b := by
  induction n with
  | zero => rfl
  | succ n ih => simp [List.replicate_succ, ih]

theorem tileBuf_length (p : List Nat) (count : Nat) :
    (tileBuf p count).length = count * p.length := by
  induction count with
  | zero => simp [tileBuf]
  | succ c ih =>
    simp only [tileBuf] at ih
    rw [tileBuf, List.replicate_succ, List.flatten_cons, List.length_append,
      ih, Nat.succ_mul]
    omega

theorem tileBuf_getD (p : List Nat) (count : Nat) (j : Nat)
    (hp : 0 < p.length) (hj : j < count * p.length) :
    (tileBuf p count).getD j 0 = p.getD (j % p.length) 0 := by
  induction count generalizing j with
  | zero => simp at hj
  | succ c ih =>
    have hs : (c + 1) * p.length = c * p.length + p.length := Nat.succ_mul c _
    simp only [tileBuf, List.replicate_succ, List.flatten_cons] at ih ⊢
    by_cases h : j < p.length
    · rw [List.getD_append _ _ _ _ h, Nat.mod_eq_of_lt h]
    · have hd : p.length ≤ j := Nat.le_of_not_lt h
      rw [List.getD_append_right _ _ _ _ hd]
      rw [ih (j - p.length) (by omega)]
      congr 1
      conv_rhs => rw [← Nat.sub_add_cancel hd, Nat.add_mod_right]

theorem memsetBuf_eq_patBuf (b : Nat) : memsetBuf b = patBuf [b] := by
  simp [memsetBuf, patBuf, tileBuf, flatten_replicate_singleton]

theorem patBufsz_singleton (b : Nat) : patBufsz [b] = SPC_WIPE_BUFSIZE := by
  simp [patBufsz]

theorem patBuf_length (p : List Nat) : (patBuf p).length = patBufsz p := by
  rw [patBuf, tileBuf_length, patBufsz, Nat.mul_comm]

theorem patBuf_getD (p : List Nat) (j : Nat) (hp : 0 < p.length)
    (hj : j < patBufsz p) : (patBuf p).getD j 0 = p.getD (j % p.length) 0 := by
  rw [patBuf, tileBuf_getD]
  · exact hp
  · rw [patBufsz, Nat.mul_comm] at hj
    exact hj

theorem patternsz_dvd_patBufsz (p : List Nat) : p.length ∣ patBufsz p :=
  Dvd.intro _ rfl

theorem okBytes_append (a b : List Ev) :
    okBytes (a ++ b) = okBytes a + okBytes b := by
  induction a with
  | nil => simp [okBytes]
  | cons e es ih =>
    match e with
    | Ev.stat => simpa [okBytes] using ih
    | Ev.seek _ => simpa [okBytes] using ih
    | Ev.flush => simpa [okBytes] using ih
    | Ev.write _ _ _ r =>
      match r with
      | WrRes.ok k => simp [okBytes, ih]; omega
      | WrRes.eintr => simpa [okBytes] using ih
      | WrRes.err => simpa [okBytes] using ih

theorem statCount_append (a b : List Ev) :
    statCount (a ++ b) = statCount a + statCount b := by
  induction a with
  | nil => simp [statCount]
  | cons e es ih =>
    match e with
    | Ev.stat => simp [statCount, ih]; omega
    | Ev.seek _ => simpa [statCount] using ih
    | Ev.flush => simpa [statCount] using ih
    | Ev.write _ _ _ _ => simpa [statCount] using ih

theorem seekCount_append (a b : List Ev) :
    seekCount (a ++ b) = seekCount a + seekCount b := by
  induction a with
  | nil => simp [seekCount]
  | cons e es ih =>
    match e with
    | Ev.stat => simpa [seekCount] using ih
    | Ev.seek _ => simp [seekCount, ih]; omega
    | Ev.flush => simpa [seekCount] using ih
    | Ev.write _ _ _ _ => simpa [seekCount] using ih

theorem flushCount_append (a b : List Ev) :
    flushCount (a ++ b) = flushCount a + flushCount b := by
  induction a with
  | nil => simp [flushCount]
  | cons e es ih =>
    match e with
    | Ev.stat => simpa [flushCount] using ih
    | Ev.seek _ => simpa [flushCount] using ih
    | Ev.flush => simp [flushCount, ih]; omega
    | Ev.write _ _ _ _ => simpa [flushCount] using ih

theorem counts_of_writes (E : List Ev) (h : ∀ e ∈ E, isWrite e = true) :
    statCount E = 0 ∧ seekCount E = 0 ∧ flushCount E = 0 := by
  induction E with
  | nil => exact ⟨rfl, rfl, rfl⟩
  | cons e es ih =>
    have he := h e (List.mem_cons_self e es)
    have ihs := ih (fun x hx => h x (List.mem_cons_of_mem e hx))
    match e with
    | Ev.write _ _ _ _ =>
      simpa [statCount, seekCount, flushCount] using ihs
    | Ev.stat => simp [isWrite] at he
    | Ev.seek _ => simp [isWrite] at he
    | Ev.flush => simp [isWrite] at he

/-! Lemmas about the reliable writer write_data. -/

theorem writeBytes_low (c : Nat → Nat) (p : Nat) (data : List Nat) (i : Nat)
    (h : i < p) : writeBytes c p data i = c i := by
  simp only [writeBytes]
  rw [if_neg]
  omega

theorem writeBytes_high (c : Nat → Nat) (p : Nat) (data : List Nat) (i : Nat)
    (h : p + data.length ≤ i) : writeBytes c p data i = c i := by
  simp only [writeBytes]
  rw [if_neg]
  omega

theorem writeBytes_mid (c : Nat → Nat) (p : Nat) (data : List Nat) (i : Nat)
    (h1 : p ≤ i) (h2 : i < p + data.length) :
    writeBytes c p data i = data.getD (i - p) 0 := by
  simp only [writeBytes]
  rw [if_pos ⟨h1, h2⟩]

theorem wd_go_ext (w : Nat → Nat → WrRes) (buf : List Nat) (nbytes : Nat) :
    ∀ fuel written st b st',
      write_data_go w buf nbytes fuel written st = some (b, st') →
      ∃ E, st'.log = st.log ++ E ∧ E ≠ [] ∧ (∀ e ∈ E, isWrite e = true) ∧
        st'.pos = st.pos + okBytes E ∧ st'.sIdx = st.sIdx ∧
        st'.fIdx = st.fIdx ∧ st'.rIdx = st.rIdx ∧
        (∀ i, i < st.pos → st'.content i = st.content i) ∧
        (∀ i, st.pos + okBytes E ≤ i → st'.content i = st.content i) := by
  intro fuel
  induction fuel with
  | zero => intro written st b st' h; simp [write_data_go] at h
  | succ fuel ih =>
    intro written st b st' h
    rw [write_data_go] at h
    rcases hw : w st.wIdx (min (nbytes - written) SSIZE_MAX) with k | _ | _ <;>
      simp only [hw] at h
    · by_cases hk : written + k < nbytes
      · rw [if_pos hk] at h
        obtain ⟨E', hlog, hne, hwr, hpos, hs, hf, hr, hlo, hhi⟩ :=
          ih (written + k)
            (wrOkStep st ((buf.drop written).take (min (nbytes - written) SSIZE_MAX))
              (min (nbytes - written) SSIZE_MAX) k) b st' h
        refine ⟨Ev.write st.pos
            ((buf.drop written).take (min (nbytes - written) SSIZE_MAX))
            (min (nbytes - written) SSIZE_MAX) (WrRes.ok k) :: E', ?_, by simp,
            ?_, ?_, by simpa [wrOkStep] using hs, by simpa [wrOkStep] using hf,
            by simpa [wrOkStep] using hr, ?_, ?_⟩
        · rw [hlog]; simp [wrOkStep]
        · intro e he
          rcases List.mem_cons.mp he with rfl | he'
          · rfl
          · exact hwr e he'
        · rw [hpos]; simp only [wrOkStep, okBytes]; omega
        · intro i hi
          rw [hlo i (by simp [wrOkStep]; omega)]
          simp only [wrOkStep]
          exact writeBytes_low _ _ _ _ hi
        · intro i hi
          simp only [okBytes] at hi
          rw [hhi i (by simp [wrOkStep]; omega)]
          simp only [wrOkStep]
          refine writeBytes_high _ _ _ _ ?_
          have hlen : (((buf.drop written).take
              (min (nbytes - written) SSIZE_MAX)).take k).length ≤ k :=
            le_trans (List.length_take_le _ _) le_rfl
          omega
      · rw [if_neg hk] at h
        rw [Option.some.injEq, Prod.mk.injEq] at h
        obtain ⟨rfl, rfl⟩ := h
        refine ⟨[Ev.write st.pos
            ((buf.drop written).take (min (nbytes - written) SSIZE_MAX))
            (min (nbytes - written) SSIZE_MAX) (WrRes.ok k)], by simp [wrOkStep],
            by simp, ?_, by simp [wrOkStep, okBytes], by simp [wrOkStep],
            by simp [wrOkStep], by simp [wrOkStep], ?_, ?_⟩
        · intro e he
          rcases List.mem_singleton.mp he with rfl
          rfl
        · intro i hi
          simp only [wrOkStep]
          exact writeBytes_low _ _ _ _ hi
        · intro i hi
          simp only [okBytes] at hi
          simp only [wrOkStep]
          refine writeBytes_high _ _ _ _ ?_
          have hlen : (((buf.drop written).take
              (min (nbytes - written) SSIZE_MAX)).take k).length ≤ k :=
            le_trans (List.length_take_le _ _) le_rfl
          omega
    · by_cases hk : written < nbytes
      · rw [if_pos hk] at h
        obtain ⟨E', hlog, hne, hwr, hpos, hs, hf, hr, hlo, hhi⟩ :=
          ih written
            (wrFailStep st ((buf.drop written).take (min (nbytes - written) SSIZE_MAX))
              (min (nbytes - written) SSIZE_MAX) WrRes.eintr) b st' h
        refine ⟨Ev.write st.pos
            ((buf.drop written).take (min (nbytes - written) SSIZE_MAX))
            (min (nbytes - written) SSIZE_MAX) WrRes.eintr :: E', ?_, by simp,
            ?_, ?_, by simpa [wrFailStep] using hs, by simpa [wrFailStep] using hf,
            by simpa [wrFailStep] using hr, ?_, ?_⟩
        · rw [hlog]; simp [wrFailStep]
        · intro e he
          rcases List.mem_cons.mp he with rfl | he'
          · rfl
          · exact hwr e he'
        · rw [hpos]; simp [wrFailStep, okBytes]
        · intro i hi
          exact hlo i (by simpa [wrFailStep] using hi)
        · intro i hi
          simp only [okBytes] at hi
          exact hhi i (by simp [wrFailStep]; omega)
      · rw [if_neg hk] at h
        rw [Option.some.injEq, Prod.mk.injEq] at h
        obtain ⟨rfl, rfl⟩ := h
        refine ⟨[Ev.write st.pos
            ((buf.drop written).take (min (nbytes - written) SSIZE_MAX))
            (min (nbytes - written) SSIZE_MAX) WrRes.eintr], by simp [wrFailStep],
            by simp, ?_, by simp [wrFailStep, okBytes], by simp [wrFailStep],
            by simp [wrFailStep], by simp [wrFailStep],
            fun i _ => rfl, fun i _ => rfl⟩
        intro e he
        rcases List.mem_singleton.mp he with rfl
        rfl
    · rw [Option.some.injEq, Prod.mk.injEq] at h
      obtain ⟨rfl, rfl⟩ := h
      refine ⟨[Ev.write st.pos
          ((buf.drop written).take (min (nbytes - written) SSIZE_MAX))
          (min (nbytes - written) SSIZE_MAX) WrRes.err], by simp [wrFailStep],
          by simp, ?_, by simp [wrFailStep, okBytes], by simp [wrFailStep],
          by simp [wrFailStep], by simp [wrFailStep],
          fun i _ => rfl, fun i _ => rfl⟩
      intro e he
      rcases List.mem_singleton.mp he with rfl
      rfl

theorem getD_drop (l : List Nat) (m i : Nat) :
    (l.drop m).getD i 0 = l.getD (m + i) 0 := by
  simp [List.getD_eq_getElem?_getD, List.getElem?_drop]

theorem getD_take (l : List Nat) (n i : Nat) (h : i < n) :
    (l.take n).getD i 0 = l.getD i 0 := by
  simp [List.getD_eq_getElem?_getD, List.getElem?_take, h]

theorem wd_go_pos_of_success (w : Nat → Nat → WrRes) (buf : List Nat)
    (nbytes : Nat) (hwf : WFw w) :
    ∀ fuel written st st', written ≤ nbytes →
      write_data_go w buf nbytes fuel written st = some (true, st') →
      st'.pos = st.pos + (nbytes - written) := by
  intro fuel
  induction fuel with
  | zero => intro written st st' hwn h; simp [write_data_go] at h
  | succ fuel ih =>
    intro written st st' hwn h
    rw [write_data_go] at h
    rcases hw : w st.wIdx (min (nbytes - written) SSIZE_MAX) with k | _ | _ <;>
      simp only [hw] at h
    · have hk' : k ≤ nbytes - written :=
        le_trans (hwf _ _ _ hw) (Nat.min_le_left _ _)
      by_cases hk : written + k < nbytes
      · rw [if_pos hk] at h
        have := ih (written + k) _ st' (by omega) h
        simp only [wrOkStep] at this
        rw [this]
        omega
      · rw [if_neg hk] at h
        rw [Option.some.injEq, Prod.mk.injEq] at h
        obtain ⟨-, rfl⟩ := h
        simp only [wrOkStep]
        omega
    · by_cases hk : written < nbytes
      · rw [if_pos hk] at h
        have := ih written _ st' hwn h
        simp only [wrFailStep] at this
        rw [this]
      · rw [if_neg hk] at h
        rw [Option.some.injEq, Prod.mk.injEq] at h
        obtain ⟨-, rfl⟩ := h
        simp only [wrFailStep]
        omega
    · rw [Option.some.injEq, Prod.mk.injEq] at h
      obtain ⟨h1, -⟩ := h
      exact absurd h1 (by simp)

theorem wd_go_pos_of_failure (w : Nat → Nat → WrRes) (buf : List Nat)
    (nbytes : Nat) (hwf : WFw w) :
    ∀ fuel written st st', written < nbytes →
      write_data_go w buf nbytes fuel written st = some (false, st') →
      st'.pos < st.pos + (nbytes - written) := by
  intro fuel
  induction fuel with
  | zero => intro written st st' hwn h; simp [write_data_go] at h
  | succ fuel ih =>
    intro written st st' hwn h
    rw [write_data_go] at h
    rcases hw : w st.wIdx (min (nbytes - written) SSIZE_MAX) with k | _ | _ <;>
      simp only [hw] at h
    · have hk' : k ≤ nbytes - written :=
        le_trans (hwf _ _ _ hw) (Nat.min_le_left _ _)
      by_cases hk : written + k < nbytes
      · rw [if_pos hk] at h
        have := ih (written + k) _ st' hk h
        simp only [wrOkStep] at this
        omega
      · rw [if_neg hk] at h
        rw [Option.some.injEq, Prod.mk.injEq] at h
        obtain ⟨h1, -⟩ := h
        exact absurd h1 (by simp)
    · rw [if_pos hwn] at h
      have := ih written _ st' hwn h
      simp only [wrFailStep] at this
      exact this
    · rw [Option.some.injEq, Prod.mk.injEq] at h
      obtain ⟨-, rfl⟩ := h
      simp only [wrFailStep]
      omega

theorem wd_go_content (w : Nat → Nat → WrRes) (buf : List Nat)
    (nbytes : Nat) (hwf : WFw w) (hbuf : nbytes ≤ buf.length) :
    ∀ fuel written st st', written ≤ nbytes →
      write_data_go w buf nbytes fuel written st = some (true, st') →
      ∀ m, m < nbytes - written →
        st'.content (st.pos + m) = buf.getD (written + m) 0 := by
  intro fuel
  induction fuel with
  | zero => intro written st st' hwn h; simp [write_data_go] at h
  | succ fuel ih =>
    intro written st st' hwn h m hm
    rw [write_data_go] at h
    rcases hw : w st.wIdx (min (nbytes - written) SSIZE_MAX) with k | _ | _ <;>
      simp only [hw] at h
    · have hk' : k ≤ nbytes - written :=
        le_trans (hwf _ _ _ hw) (Nat.min_le_left _ _)
      have hk2 : k ≤ SSIZE_MAX :=
        le_trans (hwf _ _ _ hw) (Nat.min_le_right _ _)
      have hdlen : (((buf.drop written).take
          (min (nbytes - written) SSIZE_MAX)).take k).length = k := by
        simp
        omega
      by_cases hk : written + k < nbytes
      · rw [if_pos hk] at h
        by_cases hmk : m < k
        · obtain ⟨E, hlog, hne, hwr, hpos, hs, hf, hr, hlo, hhi⟩ :=
            wd_go_ext w buf nbytes fuel (written + k) _ true st' h
          have hplt : st.pos + m < (wrOkStep st ((buf.drop written).take
              (min (nbytes - written) SSIZE_MAX))
              (min (nbytes - written) SSIZE_MAX) k).pos := by
            simp only [wrOkStep]
            omega
          rw [hlo _ hplt]
          simp only [wrOkStep]
          rw [writeBytes_mid _ _ _ _ (by omega) (by rw [hdlen]; omega)]
          rw [Nat.add_sub_cancel_left]
          rw [List.take_take, Nat.min_eq_left (by omega), getD_take _ _ _ hmk,
            getD_drop]
        · have hmk' : k ≤ m := Nat.le_of_not_lt hmk
          have := ih (written + k) _ st' (by omega) h (m - k) (by omega)
          simp only [wrOkStep] at this
          have harr : st.pos + k + (m - k) = st.pos + m := by omega
          have harr2 : written + k + (m - k) = written + m := by omega
          rw [harr, harr2] at this
          exact this
      · rw [if_neg hk] at h
        rw [Option.some.injEq, Prod.mk.injEq] at h
        obtain ⟨-, rfl⟩ := h
        simp only [wrOkStep]
        rw [writeBytes_mid _ _ _ _ (by omega) (by rw [hdlen]; omega)]
        rw [Nat.add_sub_cancel_left]
        rw [List.take_take, Nat.min_eq_left (by omega),
          getD_take _ _ _ (by omega), getD_drop]
    · by_cases hk : written < nbytes
      · rw [if_pos hk] at h
        have := ih written _ st' hwn h m hm
        simp only [wrFailStep] at this
        exact this
      · omega
    · rw [Option.some.injEq, Prod.mk.injEq] at h
      obtain ⟨h1, -⟩ := h
      exact absurd h1 (by simp)

theorem wd_go_events (w : Nat → Nat → WrRes) (buf : List Nat) (nbytes : Nat) :
    ∀ fuel written st b st',
      write_data_go w buf nbytes fuel written st = some (b, st') →
      ∃ E, st'.log = st.log ++ E ∧ E ≠ [] ∧
        (∀ pre o d q r post, E = pre ++ Ev.write o d q r :: post →
          o = st.pos + okBytes pre ∧
          q = min (nbytes - (written + okBytes pre)) SSIZE_MAX ∧
          d = (buf.drop (written + okBytes pre)).take q ∧
          (r = WrRes.err → post = [] ∧ b = false) ∧
          (post = [] → (b = false ↔ r = WrRes.err))) := by
  intro fuel
  induction fuel with
  | zero => intro written st b st' h; simp [write_data_go] at h
  | succ fuel ih =>
    intro written st b st' h
    rw [write_data_go] at h
    rcases hw : w st.wIdx (min (nbytes - written) SSIZE_MAX) with k | _ | _ <;>
      simp only [hw] at h
    · by_cases hk : written + k < nbytes
      · rw [if_pos hk] at h
        obtain ⟨E', hlog, hne, hprop⟩ := ih (written + k) _ b st' h
        refine ⟨Ev.write st.pos
            ((buf.drop written).take (min (nbytes - written) SSIZE_MAX))
            (min (nbytes - written) SSIZE_MAX) (WrRes.ok k) :: E',
            by rw [hlog]; simp [wrOkStep], by simp, ?_⟩
        intro pre o d q r post hE
        cases pre with
        | nil =>
          simp only [List.nil_append, List.cons.injEq] at hE
          obtain ⟨hE1, hE2⟩ := hE
          rw [Ev.write.injEq] at hE1
          obtain ⟨rfl, rfl, rfl, rfl⟩ := hE1
          refine ⟨by simp [okBytes], by simp [okBytes], by simp [okBytes], ?_, ?_⟩
          · intro hr; exact absurd hr (by simp)
          · intro hpost
            rw [hE2] at hne
            exact absurd hpost hne
        | cons e0 pre' =>
          simp only [List.cons_append, List.cons.injEq] at hE
          obtain ⟨rfl, hE2⟩ := hE
          obtain ⟨ho, hq, hd, herr, hlast⟩ := hprop pre' o d q r post hE2
          have hok : okBytes (Ev.write st.pos
              ((buf.drop written).take (min (nbytes - written) SSIZE_MAX))
              (min (nbytes - written) SSIZE_MAX) (WrRes.ok k) :: pre')
              = k + okBytes pre' := by simp [okBytes]
          have hix : written + k + okBytes pre' = written + (k + okBytes pre') := by
            omega
          refine ⟨?_, ?_, ?_, herr, hlast⟩
          · rw [hok, ho]; simp only [wrOkStep]; omega
          · rw [hok, hq, hix]
          · rw [hok, hd, hq, hix]
      · rw [if_neg hk] at h
        rw [Option.some.injEq, Prod.mk.injEq] at h
        obtain ⟨rfl, rfl⟩ := h
        refine ⟨[Ev.write st.pos
            ((buf.drop written).take (min (nbytes - written) SSIZE_MAX))
            (min (nbytes - written) SSIZE_MAX) (WrRes.ok k)],
            by simp [wrOkStep], by simp, ?_⟩
        intro pre o d q r post hE
        cases pre with
        | nil =>
          simp only [List.nil_append, List.cons.injEq] at hE
          obtain ⟨hE1, hE2⟩ := hE
          rw [Ev.write.injEq] at hE1
          obtain ⟨rfl, rfl, rfl, rfl⟩ := hE1
          refine ⟨by simp [okBytes], by simp [okBytes], by simp [okBytes],
            fun hr => absurd hr (by simp), fun _ => by simp⟩
        | cons e0 pre' =>
          simp only [List.cons_append, List.cons.injEq] at hE
          obtain ⟨rfl, hE2⟩ := hE
          simp at hE2
    · by_cases hk : written < nbytes
      · rw [if_pos hk] at h
        obtain ⟨E', hlog, hne, hprop⟩ := ih written _ b st' h
        refine ⟨Ev.write st.pos
            ((buf.drop written).take (min (nbytes - written) SSIZE_MAX))
            (min (nbytes - written) SSIZE_MAX) WrRes.eintr :: E',
            by rw [hlog]; simp [wrFailStep], by simp, ?_⟩
        intro pre o d q r post hE
        cases pre with
        | nil =>
          simp only [List.nil_append, List.cons.injEq] at hE
          obtain ⟨hE1, hE2⟩ := hE
          rw [Ev.write.injEq] at hE1
          obtain ⟨rfl, rfl, rfl, rfl⟩ := hE1
          refine ⟨by simp [okBytes], by simp [okBytes], by simp [okBytes], ?_, ?_⟩
          · intro hr; exact absurd hr (by simp)
          · intro hpost
            rw [hE2] at hne
            exact absurd hpost hne
        | cons e0 pre' =>
          simp only [List.cons_append, List.cons.injEq] at hE
          obtain ⟨rfl, hE2⟩ := hE
          obtain ⟨ho, hq, hd, herr, hlast⟩ := hprop pre' o d q r post hE2
          have hok : okBytes (Ev.write st.pos
              ((buf.drop written).take (min (nbytes - written) SSIZE_MAX))
              (min (nbytes - written) SSIZE_MAX) WrRes.eintr :: pre')
              = okBytes pre' := by simp [okBytes]
          refine ⟨?_, ?_, ?_, herr, hlast⟩
          · rw [hok, ho]; simp [wrFailStep]
          · rw [hok, hq]
          · rw [hok, hd, hq]
      · rw [if_neg hk] at h
        rw [Option.some.injEq, Prod.mk.injEq] at h
        obtain ⟨rfl, rfl⟩ := h
        refine ⟨[Ev.write st.pos
            ((buf.drop written).take (min (nbytes - written) SSIZE_MAX))
            (min (nbytes - written) SSIZE_MAX) WrRes.eintr],
            by simp [wrFailStep], by simp, ?_⟩
        intro pre o d q r post hE
        cases pre with
        | nil =>
          simp only [List.nil_append, List.cons.injEq] at hE
          obtain ⟨hE1, hE2⟩ := hE
          rw [Ev.write.injEq] at hE1
          obtain ⟨rfl, rfl, rfl, rfl⟩ := hE1
          refine ⟨by simp [okBytes], by simp [okBytes], by simp [okBytes],
            fun hr => absurd hr (by simp), fun _ => by simp⟩
        | cons e0 pre' =>
          simp only [List.cons_append, List.cons.injEq] at hE
          obtain ⟨rfl, hE2⟩ := hE
          simp at hE2
    · rw [Option.some.injEq, Prod.mk.injEq] at h
      obtain ⟨rfl, rfl⟩ := h
      refine ⟨[Ev.write st.pos
          ((buf.drop written).take (min (nbytes - written) SSIZE_MAX))
          (min (nbytes - written) SSIZE_MAX) WrRes.err],
          by simp [wrFailStep], by simp, ?_⟩
      intro pre o d q r post hE
      cases pre with
      | nil =>
        simp only [List.nil_append, List.cons.injEq] at hE
        obtain ⟨hE1, hE2⟩ := hE
        rw [Ev.write.injEq] at hE1
        obtain ⟨rfl, rfl, rfl, rfl⟩ := hE1
        refine ⟨by simp [okBytes], by simp [okBytes], by simp [okBytes],
          fun _ => ⟨hE2.symm, rfl⟩, fun _ => by simp⟩
      | cons e0 pre' =>
        simp only [List.cons_append, List.cons.injEq] at hE
        obtain ⟨rfl, hE2⟩ := hE
        simp at hE2

/-! Lemmas about the chunk loops of the two pass primitives. -/

theorem pattern_loop_ext (w : Nat → Nat → WrRes) (wdfuel : Nat)
    (buf : List Nat) (bufsz : Nat) :
    ∀ fuel n st b st',
      pattern_loop w wdfuel buf bufsz fuel n st = some (b, st') →
      ∃ E, st'.log = st.log ++ E ∧ (∀ e ∈ E, isWrite e = true) ∧
        st'.pos = st.pos + okBytes E ∧ st'.sIdx = st.sIdx ∧
        st'.fIdx = st.fIdx ∧ st'.rIdx = st.rIdx ∧
        (∀ i, i < st.pos → st'.content i = st.content i) ∧
        (∀ i, st.pos + okBytes E ≤ i → st'.content i = st.content i) := by
  intro fuel
  induction fuel with
  | zero => intro n st b st' h; simp [pattern_loop] at h
  | succ fuel ih =>
    intro n st b st' h
    rw [pattern_loop] at h
    by_cases hn : n = 0
    · rw [if_pos hn, Option.some.injEq, Prod.mk.injEq] at h
      obtain ⟨-, rfl⟩ := h
      exact ⟨[], by simp, by simp, by simp [okBytes], rfl, rfl, rfl,
        fun i _ => rfl, fun i _ => rfl⟩
    · rw [if_neg hn] at h
      rcases hwd : write_data w buf (min n bufsz) st wdfuel with - | ⟨b2, st2⟩ <;>
        rw [hwd] at h
      · simp at h
      · obtain ⟨E1, hlog1, -, hwr1, hpos1, hs1, hf1, hr1, hlo1, hhi1⟩ :=
          wd_go_ext w buf (min n bufsz) wdfuel 0 st b2 st2 hwd
        cases b2 with
        | false =>
          rw [Option.some.injEq, Prod.mk.injEq] at h
          obtain ⟨-, rfl⟩ := h
          exact ⟨E1, hlog1, hwr1, hpos1, hs1, hf1, hr1, hlo1, hhi1⟩
        | true =>
          obtain ⟨E2, hlog2, hwr2, hpos2, hs2, hf2, hr2, hlo2, hhi2⟩ :=
            ih (n - min n bufsz) st2 b st' h
          refine ⟨E1 ++ E2, ?_, ?_, ?_, by rw [hs2, hs1], by rw [hf2, hf1],
            by rw [hr2, hr1], ?_, ?_⟩
          · rw [hlog2, hlog1, List.append_assoc]
          · intro e he
            rcases List.mem_append.mp he with h1 | h2
            · exact hwr1 e h1
            · exact hwr2 e h2
          · rw [hpos2, hpos1, okBytes_append]
            omega
          · intro i hi
            rw [hlo2 i (by omega), hlo1 i hi]
          · intro i hi
            rw [okBytes_append] at hi
            rw [hhi2 i (by omega), hhi1 i (by omega)]
  
theorem random_loop_ext (w : Nat → Nat → WrRes) (rand : Nat → Nat → List Nat)
    (wdfuel : Nat) :
    ∀ fuel n st b st',
      random_loop w rand wdfuel fuel n st = some (b, st') →
      ∃ E, st'.log = st.log ++ E ∧ (∀ e ∈ E, isWrite e = true) ∧
        st'.pos = st.pos + okBytes E ∧ st'.sIdx = st.sIdx ∧
        st'.fIdx = st.fIdx ∧
        (∀ i, i < st.pos → st'.content i = st.content i) ∧
        (∀ i, st.pos + okBytes E ≤ i → st'.content i = st.content i) := by
  intro fuel
  induction fuel with
  | zero => intro n st b st' h; simp [random_loop] at h
  | succ fuel ih =>
    intro n st b st' h
    rw [random_loop] at h
    by_cases hn : n = 0
    · rw [if_pos hn, Option.some.injEq, Prod.mk.injEq] at h
      obtain ⟨-, rfl⟩ := h
      exact ⟨[], by simp, by simp, by simp [okBytes], rfl, rfl,
        fun i _ => rfl, fun i _ => rfl⟩
    · rw [if_neg hn] at h
      rcases hwd : write_data w (rand st.rIdx (min n SPC_WIPE_BUFSIZE))
          (min n SPC_WIPE_BUFSIZE) { st with rIdx := st.rIdx + 1 } wdfuel
        with - | ⟨b2, st2⟩ <;> rw [hwd] at h
      · simp at h
      · obtain ⟨E1, hlog1, -, hwr1, hpos1, hs1, hf1, hr1, hlo1, hhi1⟩ :=
          wd_go_ext w _ (min n SPC_WIPE_BUFSIZE) wdfuel 0 _ b2 st2 hwd
        dsimp only at hlog1 hpos1 hs1 hf1 hr1 hlo1 hhi1
        cases b2 with
        | false =>
          rw [Option.some.injEq, Prod.mk.injEq] at h
          obtain ⟨-, rfl⟩ := h
          exact ⟨E1, hlog1, hwr1, hpos1, hs1, hf1, hlo1, hhi1⟩
        | true =>
          obtain ⟨E2, hlog2, hwr2, hpos2, hs2, hf2, hlo2, hhi2⟩ :=
            ih (n - min n SPC_WIPE_BUFSIZE) st2 b st' h
          refine ⟨E1 ++ E2, ?_, ?_, ?_, by rw [hs2, hs1], by rw [hf2, hf1],
            ?_, ?_⟩
          · rw [hlog2, hlog1, List.append_assoc]
          · intro e he
            rcases List.mem_append.mp he with h1 | h2
            · exact hwr1 e h1
            · exact hwr2 e h2
          · rw [hpos2, hpos1, okBytes_append]
            omega
          · intro i hi
            rw [hlo2 i (by omega), hlo1 i hi]
          · intro i hi
            rw [okBytes_append] at hi
            rw [hhi2 i (by omega), hhi1 i (by omega)]

theorem pattern_loop_pos (w : Nat → Nat → WrRes) (wdfuel : Nat)
    (buf : List Nat) (bufsz : Nat) (hwf : WFw w) :
    ∀ fuel n st st',
      pattern_loop w wdfuel buf bufsz fuel n st = some (true, st') →
      st'.pos = st.pos + n := by
  intro fuel
  induction fuel with
  | zero => intro n st st' h; simp [pattern_loop] at h
  | succ fuel ih =>
    intro n st st' h
    rw [pattern_loop] at h
    by_cases hn : n = 0
    · rw [if_pos hn, Option.some.injEq, Prod.mk.injEq] at h
      obtain ⟨-, rfl⟩ := h
      omega
    · rw [if_neg hn] at h
      rcases hwd : write_data w buf (min n bufsz) st wdfuel with - | ⟨b2, st2⟩ <;>
        rw [hwd] at h
      · simp at h
      · cases b2 with
        | false =>
          rw [Option.some.injEq, Prod.mk.injEq] at h
          obtain ⟨h1, -⟩ := h
          exact absurd h1 (by simp)
        | true =>
          have h2 := wd_go_pos_of_success w buf (min n bufsz) hwf wdfuel 0 st st2
            (Nat.zero_le _) hwd
          have h3 := ih (n - min n bufsz) st2 st' h
          rw [h3, h2]
          have : min n bufsz ≤ n := Nat.min_le_left _ _
          omega

theorem random_loop_pos (w : Nat → Nat → WrRes) (rand : Nat → Nat → List Nat)
    (wdfuel : Nat) (hwf : WFw w) :
    ∀ fuel n st st',
      random_loop w rand wdfuel fuel n st = some (true, st') →
      st'.pos = st.pos + n := by
  intro fuel
  induction fuel with
  | zero => intro n st st' h; simp [random_loop] at h
  | succ fuel ih =>
    intro n st st' h
    rw [random_loop] at h
    by_cases hn : n = 0
    · rw [if_pos hn, Option.some.injEq, Prod.mk.injEq] at h
      obtain ⟨-, rfl⟩ := h
      omega
    · rw [if_neg hn] at h
      rcases hwd : write_data w (rand st.rIdx (min n SPC_WIPE_BUFSIZE))
          (min n SPC_WIPE_BUFSIZE) { st with rIdx := st.rIdx + 1 } wdfuel
        with - | ⟨b2, st2⟩ <;> rw [hwd] at h
      · simp at h
      · cases b2 with
        | false =>
          rw [Option.some.injEq, Prod.mk.injEq] at h
          obtain ⟨h1, -⟩ := h
          exact absurd h1 (by simp)
        | true =>
          have h2 := wd_go_pos_of_success w _ (min n SPC_WIPE_BUFSIZE) hwf wdfuel 0 _ st2
            (Nat.zero_le _) hwd
          dsimp only at h2
          have h3 := ih (n - min n SPC_WIPE_BUFSIZE) st2 st' h
          have hmin : min n SPC_WIPE_BUFSIZE ≤ n := Nat.min_le_left _ _
          omega

theorem pattern_loop_content (w : Nat → Nat → WrRes) (wdfuel : Nat)
    (buf : List Nat) (bufsz : Nat) (hwf : WFw w) (hbs : 0 < bufsz)
    (hbuf : bufsz ≤ buf.length) :
    ∀ fuel n st st',
      pattern_loop w wdfuel buf bufsz fuel n st = some (true, st') →
      ∀ m, m < n → st'.content (st.pos + m) = buf.getD (m % bufsz) 0 := by
  intro fuel
  induction fuel with
  | zero => intro n st st' h; simp [pattern_loop] at h
  | succ fuel ih =>
    intro n st st' h m hm
    rw [pattern_loop] at h
    by_cases hn : n = 0
    · omega
    · rw [if_neg hn] at h
      rcases hwd : write_data w buf (min n bufsz) st wdfuel with - | ⟨b2, st2⟩ <;>
        rw [hwd] at h
      · simp at h
      · cases b2 with
        | false =>
          rw [Option.some.injEq, Prod.mk.injEq] at h
          obtain ⟨h1, -⟩ := h
          exact absurd h1 (by simp)
        | true =>
          have htw : min n bufsz ≤ bufsz := Nat.min_le_right _ _
          have hpos2 := wd_go_pos_of_success w buf (min n bufsz) hwf wdfuel 0 st st2
            (Nat.zero_le _) hwd
          by_cases hmt : m < min n bufsz
          · have hcont := wd_go_content w buf (min n bufsz) hwf
              (le_trans htw hbuf) wdfuel 0 st st2 (Nat.zero_le _) hwd m
              (by omega)
            obtain ⟨E2, hlog2, hwr2, hpos3, hs2, hf2, hr2, hlo2, hhi2⟩ :=
              pattern_loop_ext w wdfuel buf bufsz fuel (n - min n bufsz) st2
                true st' h
            rw [hlo2 _ (by omega), hcont, Nat.zero_add,
              Nat.mod_eq_of_lt (by omega)]
          · have hmin : min n bufsz = bufsz := by omega
            have h5 := ih (n - min n bufsz) st2 st' h (m - bufsz) (by omega)
            rw [hpos2] at h5
            simp only [Nat.sub_zero, hmin] at h5
            have harr : st.pos + bufsz + (m - bufsz) = st.pos + m := by omega
            rw [harr] at h5
            rw [h5]
            congr 1
            rw [hmin] at hmt
            have hd : m = bufsz + (m - bufsz) := by omega
            conv_rhs => rw [hd, Nat.add_mod_left]

theorem pattern_loop_total (w : Nat → Nat → WrRes) (wdfuel : Nat)
    (buf : List Nat) (bufsz : Nat) (hbs : 0 < bufsz)
    (hwd : ∀ n st, n ≤ bufsz → write_data w buf n st wdfuel ≠ none) :
    ∀ fuel n st, n < fuel →
      pattern_loop w wdfuel buf bufsz fuel n st ≠ none := by
  intro fuel
  induction fuel with
  | zero => intro n st h; omega
  | succ fuel ih =>
    intro n st hlt
    rw [pattern_loop]
    by_cases hn : n = 0
    · rw [if_pos hn]; simp
    · rw [if_neg hn]
      rcases hw2 : write_data w buf (min n bufsz) st wdfuel with - | ⟨b2, st2⟩
      · exact absurd hw2 (hwd _ _ (Nat.min_le_right _ _))
      · cases b2 with
        | false => simp
        | true =>
          refine ih (n - min n bufsz) st2 ?_
          have h1 : 0 < min n bufsz := by omega
          omega

theorem random_loop_total (w : Nat → Nat → WrRes) (rand : Nat → Nat → List Nat)
    (wdfuel : Nat)
    (hwd : ∀ buf n st, n ≤ SPC_WIPE_BUFSIZE → write_data w buf n st wdfuel ≠ none) :
    ∀ fuel n st, n < fuel →
      random_loop w rand wdfuel fuel n st ≠ none := by
  intro fuel
  induction fuel with
  | zero => intro n st h; omega
  | succ fuel ih =>
    intro n st hlt
    rw [random_loop]
    by_cases hn : n = 0
    · rw [if_pos hn]; simp
    · rw [if_neg hn]
      rcases hw2 : write_data w (rand st.rIdx (min n SPC_WIPE_BUFSIZE))
          (min n SPC_WIPE_BUFSIZE) { st with rIdx := st.rIdx + 1 } wdfuel
        with - | ⟨b2, st2⟩
      · exact absurd hw2 (hwd _ _ _ (Nat.min_le_right _ _))
      · cases b2 with
        | false => simp
        | true =>
          refine ih (n - min n SPC_WIPE_BUFSIZE) st2 ?_
          have h1 : 0 < min n SPC_WIPE_BUFSIZE := by
            have : 0 < SPC_WIPE_BUFSIZE := by decide
            omega
          omega

/-! Lemmas about the two pass primitives. -/

theorem pattern_pass_out (env : SysEnv) (fuel : Nat) (buf : List Nat)
    (bufsz n : Nat) (st : St) (i : Int) (st' : St)
    (h : pattern_pass env fuel buf bufsz n st = some (i, st')) :
    (i = 0 ∨ i = -1) ∧ ∃ E, st'.log = st.log ++ E ∧ statCount E = 0 := by
  rw [pattern_pass] at h
  by_cases hb : bufsz = 0
  · rw [if_pos hb, Option.some.injEq, Prod.mk.injEq] at h
    obtain ⟨rfl, rfl⟩ := h
    exact ⟨Or.inr rfl, [], by simp, rfl⟩
  · rw [if_neg hb] at h
    by_cases hs : env.seekOk st.sIdx
    · rw [if_pos hs] at h
      rcases hl : pattern_loop env.write fuel buf bufsz fuel n (seekOkStep st)
        with - | ⟨b2, st2⟩ <;> rw [hl] at h
      · simp at h
      · obtain ⟨E, hlog, hwr, -⟩ :=
          pattern_loop_ext env.write fuel buf bufsz fuel n (seekOkStep st) b2 st2 hl
        have hstE : statCount E = 0 := (counts_of_writes E hwr).1
        cases b2 with
        | false =>
          rw [Option.some.injEq, Prod.mk.injEq] at h
          obtain ⟨rfl, rfl⟩ := h
          refine ⟨Or.inr rfl, Ev.seek true :: E, ?_, by simp [statCount, hstE]⟩
          rw [hlog]
          simp [seekOkStep]
        | true =>
          rw [Option.some.injEq, Prod.mk.injEq] at h
          obtain ⟨rfl, rfl⟩ := h
          refine ⟨Or.inl rfl, Ev.seek true :: (E ++ [Ev.flush]), ?_, ?_⟩
          · simp only [flushStep, hlog, seekOkStep]
            simp
          · simp [statCount, statCount_append, hstE]
    · rw [if_neg hs, Option.some.injEq, Prod.mk.injEq] at h
      obtain ⟨rfl, rfl⟩ := h
      exact ⟨Or.inr rfl, [Ev.seek false], by simp [seekFailStep], by simp [statCount]⟩

theorem random_pass_out (env : SysEnv) (fuel : Nat) (n : Nat) (st : St)
    (i : Int) (st' : St)
    (h : random_pass env fuel n st = some (i, st')) :
    (i = 0 ∨ i = -1) ∧ ∃ E, st'.log = st.log ++ E ∧ statCount E = 0 := by
  rw [random_pass] at h
  by_cases hs : env.seekOk st.sIdx
  · rw [if_pos hs] at h
    rcases hl : random_loop env.write env.rand fuel fuel n (seekOkStep st)
      with - | ⟨b2, st2⟩ <;> rw [hl] at h
    · simp at h
    · obtain ⟨E, hlog, hwr, -⟩ :=
        random_loop_ext env.write env.rand fuel fuel n (seekOkStep st) b2 st2 hl
      have hstE : statCount E = 0 := (counts_of_writes E hwr).1
      cases b2 with
      | false =>
        rw [Option.some.injEq, Prod.mk.injEq] at h
        obtain ⟨rfl, rfl⟩ := h
        refine ⟨Or.inr rfl, Ev.seek true :: E, ?_, by simp [statCount, hstE]⟩
        rw [hlog]
        simp [seekOkStep]
      | true =>
        rw [Option.some.injEq, Prod.mk.injEq] at h
        obtain ⟨rfl, rfl⟩ := h
        refine ⟨Or.inl rfl, Ev.seek true :: (E ++ [Ev.flush]), ?_, ?_⟩
        · simp only [flushStep, hlog, seekOkStep]
          simp
        · simp [statCount, statCount_append, hstE]
  · rw [if_neg hs, Option.some.injEq, Prod.mk.injEq] at h
    obtain ⟨rfl, rfl⟩ := h
    exact ⟨Or.inr rfl, [Ev.seek false], by simp [seekFailStep], by simp [statCount]⟩

theorem pattern_pass_success (env : SysEnv) (fuel : Nat) (buf : List Nat)
    (bufsz n : Nat) (st : St) (st' : St) (hwf : WFw env.write)
    (h : pattern_pass env fuel buf bufsz n st = some (0, st')) :
    ∃ W, st'.log = st.log ++ (Ev.seek true :: (W ++ [Ev.flush])) ∧
      (∀ e ∈ W, isWrite e = true) ∧ okBytes W = n ∧ st'.pos = n ∧ bufsz ≠ 0 := by
  rw [pattern_pass] at h
  by_cases hb : bufsz = 0
  · rw [if_pos hb, Option.some.injEq, Prod.mk.injEq] at h
    obtain ⟨h0, -⟩ := h
    exact absurd h0 (by decide)
  · rw [if_neg hb] at h
    by_cases hs : env.seekOk st.sIdx
    · rw [if_pos hs] at h
      rcases hl : pattern_loop env.write fuel buf bufsz fuel n (seekOkStep st)
        with - | ⟨b2, st2⟩ <;> rw [hl] at h
      · simp at h
      · cases b2 with
        | false =>
          rw [Option.some.injEq, Prod.mk.injEq] at h
          obtain ⟨h0, -⟩ := h
          exact absurd h0 (by decide)
        | true =>
          rw [Option.some.injEq, Prod.mk.injEq] at h
          obtain ⟨-, rfl⟩ := h
          obtain ⟨E, hlog, hwr, hpos, -⟩ :=
            pattern_loop_ext env.write fuel buf bufsz fuel n (seekOkStep st)
              true st2 hl
          have hp2 := pattern_loop_pos env.write fuel buf bufsz hwf fuel n
            (seekOkStep st) st2 hl
          refine ⟨E, ?_, hwr, ?_, ?_, hb⟩
          · simp only [flushStep, hlog, seekOkStep]
            simp
          · simp only [seekOkStep] at hpos hp2
            omega
          · simp only [flushStep]
            simp only [seekOkStep] at hp2
            omega
    · rw [if_neg hs, Option.some.injEq, Prod.mk.injEq] at h
      obtain ⟨h0, -⟩ := h
      exact absurd h0 (by decide)

theorem random_pass_success (env : SysEnv) (fuel : Nat) (n : Nat) (st : St)
    (st' : St) (hwf : WFw env.write)
    (h : random_pass env fuel n st = some (0, st')) :
    ∃ W, st'.log = st.log ++ (Ev.seek true :: (W ++ [Ev.flush])) ∧
      (∀ e ∈ W, isWrite e = true) ∧ okBytes W = n ∧ st'.pos = n := by
  rw [random_pass] at h
  by_cases hs : env.seekOk st.sIdx
  · rw [if_pos hs] at h
    rcases hl : random_loop env.write env.rand fuel fuel n (seekOkStep st)
      with - | ⟨b2, st2⟩ <;> rw [hl] at h
    · simp at h
    · cases b2 with
      | false =>
        rw [Option.some.injEq, Prod.mk.injEq] at h
        obtain ⟨h0, -⟩ := h
        exact absurd h0 (by decide)
      | true =>
        rw [Option.some.injEq, Prod.mk.injEq] at h
        obtain ⟨-, rfl⟩ := h
        obtain ⟨E, hlog, hwr, hpos, -⟩ :=
          random_loop_ext env.write env.rand fuel fuel n (seekOkStep st)
            true st2 hl
        have hp2 := random_loop_pos env.write env.rand fuel hwf fuel n
          (seekOkStep st) st2 hl
        refine ⟨E, ?_, hwr, ?_, ?_⟩
        · simp only [flushStep, hlog, seekOkStep]
          simp
        · simp only [seekOkStep] at hpos hp2
          omega
        · simp only [flushStep]
          simp only [seekOkStep] at hp2
          omega
  · rw [if_neg hs, Option.some.injEq, Prod.mk.injEq] at h
    obtain ⟨h0, -⟩ := h
    exact absurd h0 (by decide)

theorem pattern_pass_content (env : SysEnv) (fuel : Nat) (buf : List Nat)
    (bufsz n : Nat) (st : St) (st' : St) (hwf : WFw env.write)
    (hbs : 0 < bufsz) (hbuf : bufsz ≤ buf.length)
    (h : pattern_pass env fuel buf bufsz n st = some (0, st')) :
    ∀ m, m < n → st'.content m = buf.getD (m % bufsz) 0 := by
  rw [pattern_pass] at h
  rw [if_neg (by omega)] at h
  by_cases hs : env.seekOk st.sIdx
  · rw [if_pos hs] at h
    rcases hl : pattern_loop env.write fuel buf bufsz fuel n (seekOkStep st)
      with - | ⟨b2, st2⟩ <;> rw [hl] at h
    · simp at h
    · cases b2 with
      | false =>
        rw [Option.some.injEq, Prod.mk.injEq] at h
        obtain ⟨h0, -⟩ := h
        exact absurd h0 (by decide)
      | true =>
        rw [Option.some.injEq, Prod.mk.injEq] at h
        obtain ⟨-, rfl⟩ := h
        intro m hm
        have hc := pattern_loop_content env.write fuel buf bufsz hwf hbs hbuf
          fuel n (seekOkStep st) st2 hl m hm
        simp only [seekOkStep, Nat.zero_add] at hc
        simpa [flushStep] using hc
  · rw [if_neg hs, Option.some.injEq, Prod.mk.injEq] at h
    obtain ⟨h0, -⟩ := h
    exact absurd h0 (by decide)

/-! Lemmas about plan execution and the orchestrator. -/

theorem seqPass_zero (st : St) (k : St → Option (Int × St)) :
    seqPass (some (0, st)) k = k st := by
  simp [seqPass]

theorem seqPass_neg (st : St) (k : St → Option (Int × St)) :
    seqPass (some (-1, st)) k = some (-1, st) := by
  simp [seqPass]

theorem seqPass_assoc (r : Option (Int × St)) (k1 k2 : St → Option (Int × St)) :
    seqPass (seqPass r k1) k2 =
      seqPass r (fun s => seqPass (k1 s) k2) := by
  rcases r with - | ⟨i, st⟩
  · simp [seqPass]
  · by_cases hi : i = -1
    · simp [seqPass, hi]
    · simp [seqPass, hi]

theorem runPass_out (env : SysEnv) (fuel sz : Nat) (p : PassKind) (st : St)
    (i : Int) (st' : St) (h : runPass env fuel sz p st = some (i, st')) :
    (i = 0 ∨ i = -1) ∧ ∃ E, st'.log = st.log ++ E ∧ statCount E = 0 := by
  cases p with
  | random => exact random_pass_out env fuel sz st i st' h
  | pattern p => exact pattern_pass_out env fuel (patBuf p) (patBufsz p) sz st i st' h

theorem runPass_counts (env : SysEnv) (fuel sz : Nat) (p : PassKind) (st : St)
    (st' : St) (hwf : WFw env.write)
    (h : runPass env fuel sz p st = some (0, st')) :
    seekCount st'.log = seekCount st.log + 1 ∧
    flushCount st'.log = flushCount st.log + 1 ∧
    okBytes st'.log = okBytes st.log + sz ∧
    statCount st'.log = statCount st.log ∧ st'.pos = sz := by
  have hshape : ∃ W, st'.log = st.log ++ (Ev.seek true :: (W ++ [Ev.flush])) ∧
      (∀ e ∈ W, isWrite e = true) ∧ okBytes W = sz ∧ st'.pos = sz := by
    cases p with
    | random =>
      obtain ⟨W, h1, h2, h3, h4⟩ := random_pass_success env fuel sz st st' hwf h
      exact ⟨W, h1, h2, h3, h4⟩
    | pattern p =>
      obtain ⟨W, h1, h2, h3, h4, -⟩ :=
        pattern_pass_success env fuel (patBuf p) (patBufsz p) sz st st' hwf h
      exact ⟨W, h1, h2, h3, h4⟩
  obtain ⟨W, hlog, hwr, hok, hpos⟩ := hshape
  obtain ⟨hst0, hsk0, hfl0⟩ := counts_of_writes W hwr
  rw [hlog]
  rw [seekCount_append, flushCount_append, okBytes_append, statCount_append]
  refine ⟨?_, ?_, ?_, ?_, hpos⟩
  · simp [seekCount, seekCount_append, hsk0]
  · simp [flushCount, flushCount_append, hfl0]
  · simp [okBytes, okBytes_append, hok]
  · simp [statCount, statCount_append, hst0]

theorem runPlan_append (env : SysEnv) (fuel sz : Nat) (l1 l2 : List PassKind) :
    ∀ st, runPlan env fuel sz (l1 ++ l2) st =
      seqPass (runPlan env fuel sz l1 st) (runPlan env fuel sz l2) := by
  induction l1 with
  | nil => intro st; simp [runPlan, seqPass_zero]
  | cons p ps ih =>
    intro st
    rw [List.cons_append, runPlan, runPlan, seqPass_assoc]
    congr 1
    funext s
    exact ih s

theorem runPlan_out (env : SysEnv) (fuel sz : Nat) :
    ∀ (plan : List PassKind) (st : St) (i : Int) (st' : St),
      runPlan env fuel sz plan st = some (i, st') →
      (i = 0 ∨ i = -1) ∧ ∃ E, st'.log = st.log ++ E ∧ statCount E = 0 := by
  intro plan
  induction plan with
  | nil =>
    intro st i st' h
    rw [runPlan, Option.some.injEq, Prod.mk.injEq] at h
    obtain ⟨rfl, rfl⟩ := h
    exact ⟨Or.inl rfl, [], by simp, rfl⟩
  | cons p ps ih =>
    intro st i st' h
    rw [runPlan] at h
    rcases hp : runPass env fuel sz p st with - | ⟨i1, st1⟩ <;>
      rw [hp] at h
    · simp [seqPass] at h
    · obtain ⟨hi1, E1, hlog1, hst1⟩ := runPass_out env fuel sz p st i1 st1 hp
      by_cases hneg : i1 = -1
      · rw [hneg, seqPass_neg, Option.some.injEq, Prod.mk.injEq] at h
        obtain ⟨rfl, rfl⟩ := h
        exact ⟨Or.inr rfl, E1, hlog1, hst1⟩
      · have hi0 : i1 = 0 := by tauto
        rw [hi0, seqPass_zero] at h
        obtain ⟨hi, E2, hlog2, hst2⟩ := ih st1 i st' h
        refine ⟨hi, E1 ++ E2, ?_, ?_⟩
        · rw [hlog2, hlog1, List.append_assoc]
        · rw [statCount_append, hst1, hst2]
  
theorem runPlan_counts (env : SysEnv) (fuel sz : Nat) (hwf : WFw env.write) :
    ∀ (plan : List PassKind) (st : St) (st' : St),
      runPlan env fuel sz plan st = some (0, st') →
      seekCount st'.log = seekCount st.log + plan.length ∧
      flushCount st'.log = flushCount st.log + plan.length ∧
      okBytes st'.log = okBytes st.log + plan.length * sz ∧
      statCount st'.log = statCount st.log := by
  intro plan
  induction plan with
  | nil =>
    intro st st' h
    rw [runPlan, Option.some.injEq, Prod.mk.injEq] at h
    obtain ⟨-, rfl⟩ := h
    simp
  | cons p ps ih =>
    intro st st' h
    rw [runPlan] at h
    rcases hp : runPass env fuel sz p st with - | ⟨i1, st1⟩ <;>
      rw [hp] at h
    · simp [seqPass] at h
    · by_cases hneg : i1 = -1
      · rw [hneg, seqPass_neg, Option.some.injEq, Prod.mk.injEq] at h
        obtain ⟨h0, -⟩ := h
        exact absurd h0 (by decide)
      · obtain ⟨hi1, -⟩ := runPass_out env fuel sz p st i1 st1 hp
        have hi0 : i1 = 0 := by tauto
        rw [hi0, seqPass_zero] at h
        rw [hi0] at hp
        obtain ⟨hc1, hc2, hc3, hc4, -⟩ := runPass_counts env fuel sz p st st1 hwf hp
        obtain ⟨hd1, hd2, hd3, hd4⟩ := ih st1 st' h
        refine ⟨?_, ?_, ?_, ?_⟩
        · rw [List.length_cons, hd1, hc1]; omega
        · rw [List.length_cons, hd2, hc2]; omega
        · rw [List.length_cons, hd3, hc3, Nat.succ_mul]; omega
        · rw [hd4, hc4]

theorem single_pats_getD_5 : single_pats.getD 5 0 = 0x55 := rfl

theorem single_pats_getD_10 : single_pats.getD 10 0 = 0xaa := rfl

theorem patBuf_singleton (b : Nat) : patBuf [b] = memsetBuf b :=
  (memsetBuf_eq_patBuf b).symm

theorem wipe_eq_runPlan (env : SysEnv) (fuel sz : Nat) (st : St)
    (h : env.statSize = some sz) (h0 : sz ≠ 0) :
    spc_fd_wipe env fuel st = runPlan env fuel sz wipePlan (statStep st) := by
  simp only [spc_fd_wipe, h, if_neg h0, single_pats_getD_5, single_pats_getD_10]
  simp only [wipePlan, runPlan, runPass, patBuf_singleton, patBufsz_singleton,
    triplePasses, singlePasses, single_pats, triple_pats, List.take,
    seqPass_assoc, seqPass_zero]

/-! Content independence: executions from states differing only in the
stored file bytes produce identical results, logs and counters. -/

/-- States agreeing on everything except possibly the stored file bytes. -/
structure StR (s t : St) : Prop where
  pos : s.pos = t.pos
  sIdx : s.sIdx = t.sIdx
  wIdx : s.wIdx = t.wIdx
  fIdx : s.fIdx = t.fIdx
  rIdx : s.rIdx = t.rIdx
  log : s.log = t.log

/-- Results agreeing up to the stored file bytes. -/
def OR {α : Type} : Option (α × St) → Option (α × St) → Prop
  | none, none => True
  | some (a, s), some (b, t) => a = b ∧ StR s t
  | _, _ => False

theorem StR_statStep {s t : St} (h : StR s t) : StR (statStep s) (statStep t) := by
  obtain ⟨h1, h2, h3, h4, h5, h6⟩ := h
  exact ⟨h1, h2, h3, h4, h5, by simp [statStep, h6]⟩

theorem StR_seekOkStep {s t : St} (h : StR s t) :
    StR (seekOkStep s) (seekOkStep t) := by
  obtain ⟨h1, h2, h3, h4, h5, h6⟩ := h
  exact ⟨rfl, by simp [seekOkStep, h2], by simp [seekOkStep, h3],
    by simp [seekOkStep, h4], by simp [seekOkStep, h5], by simp [seekOkStep, h6]⟩

theorem StR_seekFailStep {s t : St} (h : StR s t) :
    StR (seekFailStep s) (seekFailStep t) := by
  obtain ⟨h1, h2, h3, h4, h5, h6⟩ := h
  exact ⟨by simp [seekFailStep, h1], by simp [seekFailStep, h2],
    by simp [seekFailStep, h3], by simp [seekFailStep, h4],
    by simp [seekFailStep, h5], by simp [seekFailStep, h6]⟩

theorem StR_flushStep {s t : St} (h : StR s t) :
    StR (flushStep s) (flushStep t) := by
  obtain ⟨h1, h2, h3, h4, h5, h6⟩ := h
  exact ⟨by simp [flushStep, h1], by simp [flushStep, h2],
    by simp [flushStep, h3], by simp [flushStep, h4],
    by simp [flushStep, h5], by simp [flushStep, h6]⟩

theorem StR_wrOkStep {s t : St} (d : List Nat) (q k : Nat) (h : StR s t) :
    StR (wrOkStep s d q k) (wrOkStep t d q k) := by
  obtain ⟨h1, h2, h3, h4, h5, h6⟩ := h
  exact ⟨by simp [wrOkStep, h1], by simp [wrOkStep, h2],
    by simp [wrOkStep, h3], by simp [wrOkStep, h4],
    by simp [wrOkStep, h5], by simp [wrOkStep, h1, h6]⟩

theorem StR_wrFailStep {s t : St} (d : List Nat) (q : Nat) (r : WrRes)
    (h : StR s t) : StR (wrFailStep s d q r) (wrFailStep t d q r) := by
  obtain ⟨h1, h2, h3, h4, h5, h6⟩ := h
  exact ⟨by simp [wrFailStep, h1], by simp [wrFailStep, h2],
    by simp [wrFailStep, h3], by simp [wrFailStep, h4],
    by simp [wrFailStep, h5], by simp [wrFailStep, h1, h6]⟩

theorem wd_go_or (w : Nat → Nat → WrRes) (buf : List Nat) (nbytes : Nat) :
    ∀ fuel written s t, StR s t →
      OR (write_data_go w buf nbytes fuel written s)
        (write_data_go w buf nbytes fuel written t) := by
  intro fuel
  induction fuel with
  | zero => intro written s t h; simp [write_data_go, OR]
  | succ fuel ih =>
    intro written s t h
    have hw : s.wIdx = t.wIdx := h.wIdx
    have hp : s.pos = t.pos := h.pos
    simp only [write_data_go, hw]
    rcases hww : w t.wIdx (min (nbytes - written) SSIZE_MAX) with k | - | - <;>
      simp only [hww]
    · by_cases hk : written + k < nbytes
      · rw [if_pos hk, if_pos hk]
        exact ih (written + k) _ _ (StR_wrOkStep _ _ _ h)
      · rw [if_neg hk, if_neg hk]
        exact ⟨rfl, StR_wrOkStep _ _ _ h⟩
    · by_cases hk : written < nbytes
      · rw [if_pos hk, if_pos hk]
        exact ih written _ _ (StR_wrFailStep _ _ _ h)
      · rw [if_neg hk, if_neg hk]
        exact ⟨rfl, StR_wrFailStep _ _ _ h⟩
    · exact ⟨rfl, StR_wrFailStep _ _ _ h⟩

theorem StR_rIdxBump {s t : St} (h : StR s t) :
    StR { s with rIdx := s.rIdx + 1 } { t with rIdx := t.rIdx + 1 } := by
  obtain ⟨h1, h2, h3, h4, h5, h6⟩ := h
  exact ⟨by simpa using h1, by simpa using h2, by simpa using h3,
    by simpa using h4, by simpa using h5, by simpa using h6⟩

theorem pattern_loop_or (w : Nat → Nat → WrRes) (wdfuel : Nat)
    (buf : List Nat) (bufsz : Nat) :
    ∀ fuel n s t, StR s t →
      OR (pattern_loop w wdfuel buf bufsz fuel n s)
        (pattern_loop w wdfuel buf bufsz fuel n t) := by
  intro fuel
  induction fuel with
  | zero => intro n s t h; simp [pattern_loop, OR]
  | succ fuel ih =>
    intro n s t h
    rw [pattern_loop, pattern_loop]
    by_cases hn : n = 0
    · rw [if_pos hn, if_pos hn]
      exact ⟨rfl, h⟩
    · rw [if_neg hn, if_neg hn]
      have hor := wd_go_or w buf (min n bufsz) wdfuel 0 s t h
      rcases h1 : write_data_go w buf (min n bufsz) wdfuel 0 s
        with - | ⟨b1, s1⟩ <;>
        rcases h2 : write_data_go w buf (min n bufsz) wdfuel 0 t
          with - | ⟨b2, t1⟩ <;>
        rw [h1, h2] at hor <;>
        simp only [write_data, h1, h2]
      · simp [OR]
      · exact absurd hor (by simp [OR])
      · exact absurd hor (by simp [OR])
      · obtain ⟨rfl, hst⟩ := hor
        cases b1 with
        | false => exact ⟨rfl, hst⟩
        | true => exact ih _ s1 t1 hst

theorem random_loop_or (w : Nat → Nat → WrRes) (rand : Nat → Nat → List Nat) :
    ∀ (wdfuel fuel n : Nat) (s t : St), StR s t →
      OR (random_loop w rand wdfuel fuel n s)
        (random_loop w rand wdfuel fuel n t) := by
  intro wdfuel fuel
  induction fuel with
  | zero => intro n s t h; simp [random_loop, OR]
  | succ fuel ih =>
    intro n s t h
    rw [random_loop, random_loop]
    by_cases hn : n = 0
    · rw [if_pos hn, if_pos hn]
      exact ⟨rfl, h⟩
    · rw [if_neg hn, if_neg hn]
      have hbuf : rand s.rIdx (min n SPC_WIPE_BUFSIZE)
          = rand t.rIdx (min n SPC_WIPE_BUFSIZE) := by rw [h.rIdx]
      rw [hbuf]
      have hor := wd_go_or w (rand t.rIdx (min n SPC_WIPE_BUFSIZE))
        (min n SPC_WIPE_BUFSIZE) wdfuel 0
        { s with rIdx := s.rIdx + 1 } { t with rIdx := t.rIdx + 1 }
        (StR_rIdxBump h)
      rcases h1 : write_data_go w (rand t.rIdx (min n SPC_WIPE_BUFSIZE))
          (min n SPC_WIPE_BUFSIZE) wdfuel 0 { s with rIdx := s.rIdx + 1 }
        with - | ⟨b1, s1⟩ <;>
        rcases h2 : write_data_go w (rand t.rIdx (min n SPC_WIPE_BUFSIZE))
            (min n SPC_WIPE_BUFSIZE) wdfuel 0 { t with rIdx := t.rIdx + 1 }
          with - | ⟨b2, t1⟩ <;>
        rw [h1, h2] at hor <;>
        simp only [write_data, h1, h2]
      · simp [OR]
      · exact absurd hor (by simp [OR])
      · exact absurd hor (by simp [OR])
      · obtain ⟨rfl, hst⟩ := hor
        cases b1 with
        | false => exact ⟨rfl, hst⟩
        | true => exact ih _ s1 t1 hst

theorem pattern_pass_or (env : SysEnv) (fuel : Nat) (buf : List Nat)
    (bufsz n : Nat) (s t : St) (h : StR s t) :
    OR (pattern_pass env fuel buf bufsz n s)
      (pattern_pass env fuel buf bufsz n t) := by
  rw [pattern_pass, pattern_pass]
  by_cases hb : bufsz = 0
  · rw [if_pos hb, if_pos hb]
    exact ⟨rfl, h⟩
  · rw [if_neg hb, if_neg hb, h.sIdx]
    by_cases hs : env.seekOk t.sIdx
    · rw [if_pos hs, if_pos hs]
      have hor := pattern_loop_or env.write fuel buf bufsz fuel n
        (seekOkStep s) (seekOkStep t) (StR_seekOkStep h)
      rcases h1 : pattern_loop env.write fuel buf bufsz fuel n (seekOkStep s)
        with - | ⟨b1, s1⟩ <;>
        rcases h2 : pattern_loop env.write fuel buf bufsz fuel n (seekOkStep t)
          with - | ⟨b2, t1⟩ <;>
        rw [h1, h2] at hor
      · simp [OR]
      · exact absurd hor (by simp [OR])
      · exact absurd hor (by simp [OR])
      · obtain ⟨rfl, hst⟩ := hor
        cases b1 with
        | false => exact ⟨rfl, hst⟩
        | true => exact ⟨rfl, StR_flushStep hst⟩
    · rw [if_neg hs, if_neg hs]
      exact ⟨rfl, StR_seekFailStep h⟩

theorem random_pass_or (env : SysEnv) (fuel : Nat) (n : Nat) (s t : St)
    (h : StR s t) :
    OR (random_pass env fuel n s) (random_pass env fuel n t) := by
  rw [random_pass, random_pass, h.sIdx]
  by_cases hs : env.seekOk t.sIdx
  · rw [if_pos hs, if_pos hs]
    have hor := random_loop_or env.write env.rand fuel fuel n
      (seekOkStep s) (seekOkStep t) (StR_seekOkStep h)
    rcases h1 : random_loop env.write env.rand fuel fuel n (seekOkStep s)
      with - | ⟨b1, s1⟩ <;>
      rcases h2 : random_loop env.write env.rand fuel fuel n (seekOkStep t)
        with - | ⟨b2, t1⟩ <;>
      rw [h1, h2] at hor
    · simp [OR]
    · exact absurd hor (by simp [OR])
    · exact absurd hor (by simp [OR])
    · obtain ⟨rfl, hst⟩ := hor
      cases b1 with
      | false => exact ⟨rfl, hst⟩
      | true => exact ⟨rfl, StR_flushStep hst⟩
  · rw [if_neg hs, if_neg hs]
    exact ⟨rfl, StR_seekFailStep h⟩

theorem seqPass_or {r1 r2 : Option (Int × St)} {k1 k2 : St → Option (Int × St)}
    (hr : OR r1 r2) (hk : ∀ s t, StR s t → OR (k1 s) (k2 t)) :
    OR (seqPass r1 k1) (seqPass r2 k2) := by
  rcases r1 with - | ⟨i1, s1⟩ <;> rcases r2 with - | ⟨i2, s2⟩
  · simp [seqPass, OR]
  · exact absurd hr (by simp [OR])
  · exact absurd hr (by simp [OR])
  · obtain ⟨rfl, hst⟩ := hr
    rw [seqPass, seqPass]
    by_cases hi : i1 = -1
    · rw [if_pos hi, if_pos hi]
      exact ⟨rfl, hst⟩
    · rw [if_neg hi, if_neg hi]
      exact hk s1 s2 hst

theorem singlePasses_or (env : SysEnv) (fuel sz : Nat) :
    ∀ (bs : List Nat) (s t : St), StR s t →
      OR (singlePasses env fuel sz bs s) (singlePasses env fuel sz bs t) := by
  intro bs
  induction bs with
  | nil => intro s t h; exact ⟨rfl, h⟩
  | cons b bs ih =>
    intro s t h
    rw [singlePasses, singlePasses]
    exact seqPass_or (pattern_pass_or env fuel (memsetBuf b) SPC_WIPE_BUFSIZE sz
      s t h) (fun s1 t1 h1 => ih s1 t1 h1)

theorem triplePasses_or (env : SysEnv) (fuel sz : Nat) :
    ∀ (ps : List (List Nat)) (s t : St), StR s t →
      OR (triplePasses env fuel sz ps s) (triplePasses env fuel sz ps t) := by
  intro ps
  induction ps with
  | nil => intro s t h; exact ⟨rfl, h⟩
  | cons p ps ih =>
    intro s t h
    rw [triplePasses, triplePasses]
    exact seqPass_or (pattern_pass_or env fuel (patBuf p) (patBufsz p) sz
      s t h) (fun s1 t1 h1 => ih s1 t1 h1)

theorem spc_fd_wipe_or (env : SysEnv) (fuel : Nat) (s t : St) (h : StR s t) :
    OR (spc_fd_wipe env fuel s) (spc_fd_wipe env fuel t) := by
  rcases hss : env.statSize with - | sz
  · simp only [spc_fd_wipe, hss]
    exact ⟨rfl, StR_statStep h⟩
  · by_cases hz : sz = 0
    · simp only [spc_fd_wipe, hss, if_pos hz]
      exact ⟨rfl, StR_statStep h⟩
    · simp only [spc_fd_wipe, hss, if_neg hz]
      refine seqPass_or (random_pass_or env fuel sz _ _ (StR_statStep h))
        (fun s1 t1 h1 => ?_)
      refine seqPass_or (random_pass_or env fuel sz _ _ h1) (fun s2 t2 h2 => ?_)
      refine seqPass_or (random_pass_or env fuel sz _ _ h2) (fun s3 t3 h3 => ?_)
      refine seqPass_or (random_pass_or env fuel sz _ _ h3) (fun s4 t4 h4 => ?_)
      refine seqPass_or (pattern_pass_or env fuel _ _ sz _ _ h4)
        (fun s5 t5 h5 => ?_)
      refine seqPass_or (pattern_pass_or env fuel _ _ sz _ _ h5)
        (fun s6 t6 h6 => ?_)
      refine seqPass_or (triplePasses_or env fuel sz _ _ _ h6)
        (fun s7 t7 h7 => ?_)
      refine seqPass_or (singlePasses_or env fuel sz _ _ _ h7)
        (fun s8 t8 h8 => ?_)
      refine seqPass_or (triplePasses_or env fuel sz _ _ _ h8)
        (fun s9 t9 h9 => ?_)
      refine seqPass_or (random_pass_or env fuel sz _ _ h9) (fun sa ta ha => ?_)
      refine seqPass_or (random_pass_or env fuel sz _ _ ha) (fun sb tb hb => ?_)
      refine seqPass_or (random_pass_or env fuel sz _ _ hb) (fun sc tc hc => ?_)
      refine seqPass_or (random_pass_or env fuel sz _ _ hc) (fun sd td hd => ?_)
      exact ⟨rfl, hd⟩

/-! Flush independence: the fsync outcome stream is never consulted. -/

theorem random_pass_flush_blind (env : SysEnv) (g : Nat → Bool) (fuel n : Nat)
    (st : St) :
    random_pass { env with flushOk := g } fuel n st = random_pass env fuel n st := by
  rcases env with ⟨ss, sk, w, f, r⟩
  rfl

theorem pattern_pass_flush_blind (env : SysEnv) (g : Nat → Bool) (fuel : Nat)
    (buf : List Nat) (bufsz n : Nat) (st : St) :
    pattern_pass { env with flushOk := g } fuel buf bufsz n st
      = pattern_pass env fuel buf bufsz n st := by
  rcases env with ⟨ss, sk, w, f, r⟩
  rfl

theorem spc_fd_wipe_flush_blind (env : SysEnv) (g : Nat → Bool) (fuel : Nat)
    (st : St) :
    spc_fd_wipe { env with flushOk := g } fuel st = spc_fd_wipe env fuel st := by
  rcases env with ⟨ss, sk, w, f, r⟩
  rfl

theorem random_pass_flush_success (env : SysEnv) (fuel n : Nat) (st st1 : St)
    (hs : env.seekOk st.sIdx = true)
    (hl : random_loop env.write env.rand fuel fuel n (seekOkStep st)
      = some (true, st1)) :
    random_pass env fuel n st = some (0, flushStep st1) := by
  rw [random_pass, if_pos hs, hl]

theorem pattern_pass_flush_success (env : SysEnv) (fuel : Nat) (buf : List Nat)
    (bufsz n : Nat) (st st1 : St) (hb : bufsz ≠ 0)
    (hs : env.seekOk st.sIdx = true)
    (hl : pattern_loop env.write fuel buf bufsz fuel n (seekOkStep st)
      = some (true, st1)) :
    pattern_pass env fuel buf bufsz n st = some (0, flushStep st1) := by
  rw [pattern_pass, if_neg hb, if_pos hs, hl]

/-! Orchestrator-level helper lemmas. -/

theorem wipe_zero (env : SysEnv) (fuel : Nat) (st : St)
    (h : env.statSize = some 0) :
    spc_fd_wipe env fuel st = some (0, statStep st) := by
  simp [spc_fd_wipe, h]

theorem wipe_statFail (env : SysEnv) (fuel : Nat) (st : St)
    (h : env.statSize = none) :
    spc_fd_wipe env fuel st = some (-1, statStep st) := by
  simp only [spc_fd_wipe, h]

theorem statCount_statStep (st : St) :
    statCount (statStep st).log = statCount st.log + 1 := by
  simp [statStep, statCount_append, statCount]

theorem wipe_out (env : SysEnv) (fuel : Nat) (st : St) (i : Int) (st' : St)
    (h : spc_fd_wipe env fuel st = some (i, st')) :
    (i = 0 ∨ i = -1) ∧ statCount st'.log = statCount st.log + 1 := by
  rcases hss : env.statSize with - | sz
  · rw [wipe_statFail env fuel st hss, Option.some.injEq, Prod.mk.injEq] at h
    obtain ⟨rfl, rfl⟩ := h
    exact ⟨Or.inr rfl, statCount_statStep st⟩
  · by_cases hz : sz = 0
    · rw [hz] at hss
      rw [wipe_zero env fuel st hss, Option.some.injEq, Prod.mk.injEq] at h
      obtain ⟨rfl, rfl⟩ := h
      exact ⟨Or.inl rfl, statCount_statStep st⟩
    · rw [wipe_eq_runPlan env fuel sz st hss hz] at h
      obtain ⟨hi, E, hlog, hstE⟩ := runPlan_out env fuel sz wipePlan _ i st' h
      refine ⟨hi, ?_⟩
      rw [hlog, statCount_append, hstE, statCount_statStep]

theorem runPass_shape (env : SysEnv) (fuel sz : Nat) (p : PassKind) (st : St)
    (st' : St) (hwf : WFw env.write)
    (h : runPass env fuel sz p st = some (0, st')) :
    ∃ W, st'.log = st.log ++ (Ev.seek true :: (W ++ [Ev.flush])) ∧
      (∀ e ∈ W, isWrite e = true) ∧ okBytes W = sz ∧ st'.pos = sz := by
  cases p with
  | random =>
    obtain ⟨W, h1, h2, h3, h4⟩ := random_pass_success env fuel sz st st' hwf h
    exact ⟨W, h1, h2, h3, h4⟩
  | pattern p =>
    obtain ⟨W, h1, h2, h3, h4, -⟩ :=
      pattern_pass_success env fuel (patBuf p) (patBufsz p) sz st st' hwf h
    exact ⟨W, h1, h2, h3, h4⟩

/-! Concrete environments used to exercise the theorems. -/

theorem WFw_wHappy : WFw wHappy := by
  intro i n k h
  rw [wHappy] at h
  cases h
  exact Nat.le_refl n

theorem envHappy_WF (sz : Nat) : (envHappy sz).WF :=
  ⟨WFw_wHappy, fun i n => List.length_replicate n 0⟩

theorem envSeekFail2_WF (sz : Nat) : (envSeekFail2 sz).WF :=
  ⟨WFw_wHappy, fun i n => List.length_replicate n 0⟩

theorem write_data_happy (buf : List Nat) (n : Nat) (st : St)
    (h : n ≤ SSIZE_MAX) : write_data wHappy buf n st 1 ≠ none := by
  rw [write_data, write_data_go]
  simp only [wHappy, Nat.sub_zero, Nat.min_eq_left h]
  rw [if_neg (by omega)]
  simp

/-! Claim theorems. -/

/-- C1: for every non-empty file spc_fd_wipe executes exactly 35 passes
in the fixed order: passes 1-4 random, pass 5 the 0x55 byte, pass 6 the
0xAA byte, passes 7-9 the first three triple patterns in table order,
passes 10-25 the sixteen single-byte values ascending, passes 26-31 all
six triple patterns in table order, passes 32-35 random: the orchestrator
coincides with executing the literal 35-entry plan. -/
theorem C1_thirty_five_pass_plan :
    wipePlan.length = 35 ∧
    wipePlan.take 4 = List.replicate 4 PassKind.random ∧
    wipePlan.getD 4 PassKind.random = PassKind.pattern [0x55] ∧
    wipePlan.getD 5 PassKind.random = PassKind.pattern [0xaa] ∧
    (wipePlan.drop 6).take 3 = (triple_pats.take 3).map PassKind.pattern ∧
    (wipePlan.drop 9).take 16
      = single_pats.map (fun b => PassKind.pattern [b]) ∧
    (wipePlan.drop 25).take 6 = triple_pats.map PassKind.pattern ∧
    wipePlan.drop 31 = List.replicate 4 PassKind.random ∧
    ∀ env fuel sz st, env.statSize = some sz → sz ≠ 0 →
      spc_fd_wipe env fuel st = runPlan env fuel sz wipePlan (statStep st) :=
  ⟨rfl, rfl, rfl, rfl, rfl, rfl, rfl, rfl, fun env fuel sz st h h0 =>
    wipe_eq_runPlan env fuel sz st h h0⟩

theorem C1_witness :
    (envHappy 5).statSize = some 5 ∧ (5 : Nat) ≠ 0 ∧
    spc_fd_wipe (envHappy 5) 10 initSt
      = runPlan (envHappy 5) 10 5 wipePlan (statStep initSt) :=
  ⟨rfl, by decide,
    C1_thirty_five_pass_plan.2.2.2.2.2.2.2.2 (envHappy 5) 10 5 initSt rfl
      (by decide)⟩

/-- C2: every pattern pass writes byte P at offset i mod L across the
whole size snapshot, for a tiled buffer whose length the pattern length
divides; in particular the 5000-byte scenario yields 1666 repetitions of
the 3-byte pattern plus the two bytes 0x92 0x49. -/
theorem C2_pattern_pass_bytes (env : SysEnv) (fuel : Nat) (P buf : List Nat)
    (bufsz sz : Nat) (st st' : St) (hwf : env.WF) (hP : 0 < P.length)
    (hlen : bufsz ≤ buf.length) (hdvd : P.length ∣ bufsz)
    (htile : ∀ j, j < bufsz → buf.getD j 0 = P.getD (j % P.length) 0)
    (h : pattern_pass env fuel buf bufsz sz st = some (0, st')) :
    st'.pos = sz ∧ ∀ i, i < sz → st'.content i = P.getD (i % P.length) 0 := by
  obtain ⟨W, hlog, hwr, hok, hpos, hb⟩ :=
    pattern_pass_success env fuel buf bufsz sz st st' hwf.1 h
  refine ⟨hpos, ?_⟩
  intro i hi
  have hbs : 0 < bufsz := Nat.pos_of_ne_zero hb
  have hc := pattern_pass_content env fuel buf bufsz sz st st' hwf.1 hbs hlen
    h i hi
  rw [hc, htile (i % bufsz) (Nat.mod_lt i hbs), Nat.mod_mod_of_dvd i hdvd]

/-- Default pair used to name computed states. -/
def dfltIS : Int × St := (0, initSt)

/-- Final state of the 5000-byte scenario pattern pass. -/
def stC2 : St :=
  ((pattern_pass (envHappy 5000) 10 (patBuf [0x92, 0x49, 0x24])
    (patBufsz [0x92, 0x49, 0x24]) 5000 initSt).getD dfltIS).2

theorem C2_witness :
    (envHappy 5000).WF ∧ 0 < ([0x92, 0x49, 0x24] : List Nat).length ∧
    pattern_pass (envHappy 5000) 10 (patBuf [0x92, 0x49, 0x24])
        (patBufsz [0x92, 0x49, 0x24]) 5000 initSt = some (0, stC2) ∧
    stC2.pos = 5000 ∧ stC2.content 0 = 0x92 ∧ stC2.content 1 = 0x49 ∧
    stC2.content 2 = 0x24 ∧ stC2.content 4998 = 0x92 ∧
    stC2.content 4999 = 0x49 := by
  have h : pattern_pass (envHappy 5000) 10 (patBuf [0x92, 0x49, 0x24])
      (patBufsz [0x92, 0x49, 0x24]) 5000 initSt = some (0, stC2) := rfl
  have main := C2_pattern_pass_bytes (envHappy 5000) 10 [0x92, 0x49, 0x24] _ _
    5000 initSt stC2 (envHappy_WF 5000) (by decide)
    (le_of_eq (patBuf_length _).symm) (patternsz_dvd_patBufsz _)
    (fun j hj => patBuf_getD _ j (by decide) hj) h
  refine ⟨envHappy_WF 5000, by decide, h, main.1, ?_, ?_, ?_, ?_, ?_⟩
  · rw [main.2 0 (by decide)]; decide
  · rw [main.2 1 (by decide)]; decide
  · rw [main.2 2 (by decide)]; decide
  · rw [main.2 4998 (by decide)]; decide
  · rw [main.2 4999 (by decide)]; decide

/-- State left by a failing zero-length write request. -/
def stC3cex : St :=
  { content := fun _ => 0, pos := 0, sIdx := 0, wIdx := 1, fIdx := 0,
    rIdx := 0, log := [Ev.write 0 [] 0 WrRes.err] }

/-- C3 counterexample: with nbytes = 0 and a first write call failing,
write_data reports failure (the source's do/while issues one zero-length
write before checking the loop condition) even though exactly the
requested total of 0 bytes has been written, refuting the claimed
success-iff-full-count equivalence at this input. -/
theorem C3_counterexample :
    write_data (fun i n => WrRes.err) [] 0 initSt 1 = some (false, stC3cex) ∧
    okBytes stC3cex.log = 0 ∧
    ¬ (false = true ↔ okBytes stC3cex.log = 0) :=
  ⟨rfl, rfl, by decide⟩

/-- C3 (amended: restricted to positive byte counts): for nbytes > 0 and
POSIX-well-formed write outcomes, write_data succeeds exactly when the
acknowledged total equals nbytes; every issued write requests
min(remaining, SSIZE_MAX) bytes of the buffer at the already-written
offset, at the file offset advanced by the acknowledged total; EINTR
outcomes are retried from the current offset; a non-EINTR error is
terminal and the only source of failure. -/
theorem C3_write_data_protocol (w : Nat → Nat → WrRes) (buf : List Nat)
    (nbytes : Nat) (st : St) (fuel : Nat) (b : Bool) (st' : St)
    (hwf : WFw w) (hn : 0 < nbytes)
    (h : write_data w buf nbytes st fuel = some (b, st')) :
    ∃ E, st'.log = st.log ++ E ∧ E ≠ [] ∧ (∀ e ∈ E, isWrite e = true) ∧
      (b = true ↔ okBytes E = nbytes) ∧
      (b = false → okBytes E < nbytes) ∧
      st'.pos = st.pos + okBytes E ∧
      (∀ pre o d q r post, E = pre ++ Ev.write o d q r :: post →
        o = st.pos + okBytes pre ∧
        q = min (nbytes - okBytes pre) SSIZE_MAX ∧
        d = (buf.drop (okBytes pre)).take q ∧
        (r = WrRes.err → post = [] ∧ b = false) ∧
        (post = [] → (b = false ↔ r = WrRes.err))) := by
  rw [write_data] at h
  obtain ⟨E, hlog, hne, hwr, hpos, -, -, -, -, -⟩ :=
    wd_go_ext w buf nbytes fuel 0 st b st' h
  obtain ⟨E2, hlog2, -, hprop⟩ := wd_go_events w buf nbytes fuel 0 st b st' h
  have hEE : E = E2 := List.append_cancel_left (hlog.symm.trans hlog2)
  subst hEE
  have hiff : b = true ↔ okBytes E = nbytes := by
    constructor
    · intro hb
      subst hb
      have hps := wd_go_pos_of_success w buf nbytes hwf fuel 0 st st'
        (Nat.zero_le _) h
      omega
    · intro hok
      cases b with
      | true => rfl
      | false =>
        have hpf := wd_go_pos_of_failure w buf nbytes hwf fuel 0 st st' hn h
        omega
  have hlt : b = false → okBytes E < nbytes := by
    intro hb
    subst hb
    have hpf := wd_go_pos_of_failure w buf nbytes hwf fuel 0 st st' hn h
    omega
  refine ⟨E, hlog, hne, hwr, hiff, hlt, hpos, ?_⟩
  intro pre o d q r post hE
  obtain ⟨ho, hq, hd, herr, hlast⟩ := hprop pre o d q r post hE
  rw [Nat.zero_add] at hq hd
  exact ⟨ho, hq, hd, herr, hlast⟩

/-- Write outcome stream whose first call is interrupted and whose later
calls fully succeed. -/
def wC3 : Nat → Nat → WrRes :=
  fun i n => if i = 0 then WrRes.eintr else WrRes.ok n

theorem WFw_wC3 : WFw wC3 := by
  intro i n k h
  rw [wC3] at h
  by_cases hi : i = 0
  · rw [if_pos hi] at h
    exact absurd h (by simp)
  · rw [if_neg hi] at h
    cases h
    exact Nat.le_refl n

/-- Final state of a 3-byte write through an interrupted first call. -/
def stC3w : St :=
  ((write_data wC3 [1, 2, 3] 3 initSt 2).getD (true, initSt)).2

theorem C3_witness :
    WFw wC3 ∧ 0 < 3 ∧
    write_data wC3 [1, 2, 3] 3 initSt 2 = some (true, stC3w) ∧
    (∃ E, stC3w.log = initSt.log ++ E ∧ E ≠ [] ∧
      (∀ e ∈ E, isWrite e = true) ∧
      (true = true ↔ okBytes E = 3) ∧
      (true = false → okBytes E < 3) ∧
      stC3w.pos = initSt.pos + okBytes E ∧
      (∀ pre o d q r post, E = pre ++ Ev.write o d q r :: post →
        o = initSt.pos + okBytes pre ∧
        q = min (3 - okBytes pre) SSIZE_MAX ∧
        d = (([1, 2, 3] : List Nat).drop (okBytes pre)).take q ∧
        (r = WrRes.err → post = [] ∧ true = false) ∧
        (post = [] → (true = false ↔ r = WrRes.err)))) := by
  have h : write_data wC3 [1, 2, 3] 3 initSt 2 = some (true, stC3w) := rfl
  exact ⟨WFw_wC3, by decide, h,
    C3_write_data_protocol wC3 [1, 2, 3] 3 initSt 2 true stC3w WFw_wC3
      (by decide) h⟩

/-- C4: the size is queried exactly once per wipe call (exactly one stat
event regardless of outcome); every successful pass seeks to offset 0 and
then writes exactly the snapshot sz bytes before its flush; a completed
wipe acknowledges exactly 35 * sz bytes in total, the snapshot being the
single value passed to every pass. -/
theorem C4_single_snapshot_per_pass :
    (∀ env fuel st i st', spc_fd_wipe env fuel st = some (i, st') →
      statCount st'.log = statCount st.log + 1) ∧
    (∀ env fuel sz p st st', WFw env.write →
      runPass env fuel sz p st = some (0, st') →
      ∃ W, st'.log = st.log ++ (Ev.seek true :: (W ++ [Ev.flush])) ∧
        (∀ e ∈ W, isWrite e = true) ∧ okBytes W = sz ∧ st'.pos = sz) ∧
    (∀ env fuel sz st st', WFw env.write → env.statSize = some sz →
      spc_fd_wipe env fuel st = some (0, st') →
      okBytes st'.log = okBytes st.log + 35 * sz) := by
  refine ⟨?_, ?_, ?_⟩
  · intro env fuel st i st' h
    exact (wipe_out env fuel st i st' h).2
  · intro env fuel sz p st st' hwf h
    exact runPass_shape env fuel sz p st st' hwf h
  · intro env fuel sz st st' hwf hss h
    by_cases hz : sz = 0
    · subst hz
      rw [wipe_zero env fuel st hss, Option.some.injEq, Prod.mk.injEq] at h
      obtain ⟨-, rfl⟩ := h
      simp [statStep, okBytes_append, okBytes]
    · rw [wipe_eq_runPlan env fuel sz st hss hz] at h
      have hc := (runPlan_counts env fuel sz hwf wipePlan _ _ h).2.2.1
      rw [hc]
      have hplen : wipePlan.length = 35 := rfl
      rw [hplen]
      simp [statStep, okBytes_append, okBytes]

/-- Final state of a completed happy-path wipe of a 5-byte file. -/
def stC4 : St := ((spc_fd_wipe (envHappy 5) 10 initSt).getD dfltIS).2

/-- Final state of one happy-path random pass over 5 bytes. -/
def stC4p : St :=
  ((runPass (envHappy 5) 10 5 PassKind.random initSt).getD dfltIS).2

theorem C4_witness :
    spc_fd_wipe (envHappy 5) 10 initSt = some (0, stC4) ∧
    statCount stC4.log = statCount initSt.log + 1 ∧
    runPass (envHappy 5) 10 5 PassKind.random initSt = some (0, stC4p) ∧
    (∃ W, stC4p.log = initSt.log ++ (Ev.seek true :: (W ++ [Ev.flush])) ∧
      (∀ e ∈ W, isWrite e = true) ∧ okBytes W = 5 ∧ stC4p.pos = 5) ∧
    okBytes stC4.log = okBytes initSt.log + 35 * 5 := by
  have h1 : spc_fd_wipe (envHappy 5) 10 initSt = some (0, stC4) := rfl
  have h2 : runPass (envHappy 5) 10 5 PassKind.random initSt
      = some (0, stC4p) := rfl
  exact ⟨h1, C4_single_snapshot_per_pass.1 _ 10 initSt 0 stC4 h1, h2,
    C4_single_snapshot_per_pass.2.1 _ 10 5 PassKind.random initSt stC4p
      WFw_wHappy h2,
    C4_single_snapshot_per_pass.2.2 _ 10 5 initSt stC4 WFw_wHappy rfl h1⟩

/-- C5: a zero-size snapshot returns success immediately, the log gaining
only the stat event (no seek, write or flush is issued); a completed wipe
of a non-empty file performs exactly 35 seeks and 35 flushes, one per
pass. -/
theorem C5_empty_shortcircuit_and_35 :
    (∀ env fuel st, env.statSize = some 0 →
      spc_fd_wipe env fuel st = some (0, statStep st)) ∧
    (∀ env fuel sz st st', WFw env.write → env.statSize = some sz → sz ≠ 0 →
      spc_fd_wipe env fuel st = some (0, st') →
      seekCount st'.log = seekCount st.log + 35 ∧
      flushCount st'.log = flushCount st.log + 35) := by
  refine ⟨fun env fuel st h => wipe_zero env fuel st h, ?_⟩
  intro env fuel sz st st' hwf hss hz h
  rw [wipe_eq_runPlan env fuel sz st hss hz] at h
  obtain ⟨hc1, hc2, -, -⟩ := runPlan_counts env fuel sz hwf wipePlan _ _ h
  have hplen : wipePlan.length = 35 := rfl
  constructor
  · rw [hc1, hplen]
    simp [statStep, seekCount_append, seekCount]
  · rw [hc2, hplen]
    simp [statStep, flushCount_append, flushCount]

/-- Final state of a completed happy-path wipe of a 5-byte file, for the
counting part of C5. -/
def stC5 : St := ((spc_fd_wipe (envHappy 5) 10 initSt).getD dfltIS).2

theorem C5_witness :
    (envHappy 0).statSize = some 0 ∧
    spc_fd_wipe (envHappy 0) 10 initSt = some (0, statStep initSt) ∧
    spc_fd_wipe (envHappy 5) 10 initSt = some (0, stC5) ∧
    seekCount stC5.log = seekCount initSt.log + 35 ∧
    flushCount stC5.log = flushCount initSt.log + 35 := by
  have h1 : spc_fd_wipe (envHappy 5) 10 initSt = some (0, stC5) := rfl
  obtain ⟨hs, hf⟩ := C5_empty_shortcircuit_and_35.2 (envHappy 5) 10 5 initSt
    stC5 WFw_wHappy rfl (by decide) h1
  exact ⟨rfl, C5_empty_shortcircuit_and_35.1 (envHappy 0) 10 initSt rfl,
    h1, hs, hf⟩

/-- C6: when pass k fails, spc_fd_wipe returns that -1 immediately with
the state exactly as the failing pass left it (no rollback, no later
pass), and a successful wipe implies every prefix of the 35-pass plan
completed. -/
theorem C6_first_failure_aborts :
    (∀ env fuel sz st pre p post st1 st2,
      env.statSize = some sz → sz ≠ 0 → wipePlan = pre ++ p :: post →
      runPlan env fuel sz pre (statStep st) = some (0, st1) →
      runPass env fuel sz p st1 = some (-1, st2) →
      spc_fd_wipe env fuel st = some (-1, st2)) ∧
    (∀ env fuel sz st st' pre post,
      env.statSize = some sz → sz ≠ 0 →
      spc_fd_wipe env fuel st = some (0, st') → wipePlan = pre ++ post →
      ∃ stm, runPlan env fuel sz pre (statStep st) = some (0, stm)) := by
  constructor
  · intro env fuel sz st pre p post st1 st2 hss hz hplan h1 h2
    rw [wipe_eq_runPlan env fuel sz st hss hz, hplan,
      runPlan_append env fuel sz pre (p :: post) (statStep st), h1,
      seqPass_zero, runPlan, h2, seqPass_neg]
  · intro env fuel sz st st' pre post hss hz h hplan
    rw [wipe_eq_runPlan env fuel sz st hss hz, hplan,
      runPlan_append env fuel sz pre post (statStep st)] at h
    rcases hp : runPlan env fuel sz pre (statStep st) with - | ⟨i1, stm⟩ <;>
      rw [hp] at h
    · simp [seqPass] at h
    · obtain ⟨hi1, -⟩ := runPlan_out env fuel sz pre _ i1 stm hp
      rcases hi1 with rfl | rfl
      · exact ⟨stm, rfl⟩
      · rw [seqPass_neg, Option.some.injEq, Prod.mk.injEq] at h
        obtain ⟨h0, -⟩ := h
        exact absurd h0 (by decide)

/-- State after the first (successful) pass under an environment whose
second seek fails. -/
def stC6a : St :=
  ((runPlan (envSeekFail2 5) 10 5 [PassKind.random]
    (statStep initSt)).getD dfltIS).2

/-- State after the failing second pass. -/
def stC6b : St :=
  ((runPass (envSeekFail2 5) 10 5 PassKind.random stC6a).getD dfltIS).2

theorem C6_witness :
    (envSeekFail2 5).statSize = some 5 ∧
    wipePlan = [PassKind.random] ++ PassKind.random :: wipePlan.drop 2 ∧
    runPlan (envSeekFail2 5) 10 5 [PassKind.random] (statStep initSt)
      = some (0, stC6a) ∧
    runPass (envSeekFail2 5) 10 5 PassKind.random stC6a = some (-1, stC6b) ∧
    spc_fd_wipe (envSeekFail2 5) 10 initSt = some (-1, stC6b) := by
  have h1 : runPlan (envSeekFail2 5) 10 5 [PassKind.random] (statStep initSt)
      = some (0, stC6a) := rfl
  have h2 : runPass (envSeekFail2 5) 10 5 PassKind.random stC6a
      = some (-1, stC6b) := rfl
  exact ⟨rfl, rfl, h1, h2,
    C6_first_failure_aborts.1 (envSeekFail2 5) 10 5 initSt [PassKind.random]
      PassKind.random (wipePlan.drop 2) stC6a stC6b rfl (by decide) rfl h1 h2⟩

/-- C7 counterexample: a failed size query, a failed seek and a failed
write all make spc_fd_wipe return the same value -1, so the caller cannot
tell the first failure's kind from the result alone, refuting the claim
that the returned value identifies the error kind. -/
theorem C7_counterexample :
    spc_fd_wipe envStatFail 10 initSt = some (-1, statStep initSt) ∧
    spc_fd_wipe (envSeekFail 5) 10 initSt
      = some (-1, seekFailStep (statStep initSt)) ∧
    (spc_fd_wipe envStatFail 10 initSt).map Prod.fst
      = (spc_fd_wipe (envSeekFail 5) 10 initSt).map Prod.fst ∧
    (spc_fd_wipe (envWriteErr 5) 10 initSt).map Prod.fst = some (-1) :=
  ⟨rfl, rfl, rfl, rfl⟩

/-- C7 (amended): the wipe returns only 0 on success or -1 on any
failure; a failed size query returns -1 immediately after the single stat
event, but the value -1 itself carries no error kind. -/
theorem C7_return_value_collapsed :
    (∀ env fuel st i st', spc_fd_wipe env fuel st = some (i, st') →
      i = 0 ∨ i = -1) ∧
    (∀ env fuel st, env.statSize = none →
      spc_fd_wipe env fuel st = some (-1, statStep st)) :=
  ⟨fun env fuel st i st' h => (wipe_out env fuel st i st' h).1,
   fun env fuel st h => wipe_statFail env fuel st h⟩

/-- Final state of a happy-path wipe, for the C7 witness. -/
def stC7 : St := ((spc_fd_wipe (envHappy 5) 10 initSt).getD dfltIS).2

theorem C7_witness :
    spc_fd_wipe (envHappy 5) 10 initSt = some (0, stC7) ∧
    ((0 : Int) = 0 ∨ (0 : Int) = -1) ∧
    envStatFail.statSize = none ∧
    spc_fd_wipe envStatFail 10 initSt = some (-1, statStep initSt) := by
  have h : spc_fd_wipe (envHappy 5) 10 initSt = some (0, stC7) := rfl
  exact ⟨h, C7_return_value_collapsed.1 _ 10 initSt 0 stC7 h, rfl,
    C7_return_value_collapsed.2 envStatFail 10 initSt rfl⟩

/-- C8: the fsync outcome stream is never consulted: replacing it changes
nothing in any pass or in the whole wipe, and a pass whose chunk loop
completed returns 0 right after issuing its flush, whatever the flush
outcome would be. -/
theorem C8_flush_result_ignored :
    (∀ env g fuel st,
      spc_fd_wipe { env with flushOk := g } fuel st
        = spc_fd_wipe env fuel st) ∧
    (∀ env g fuel n st,
      random_pass { env with flushOk := g } fuel n st
        = random_pass env fuel n st) ∧
    (∀ env g fuel buf bufsz n st,
      pattern_pass { env with flushOk := g } fuel buf bufsz n st
        = pattern_pass env fuel buf bufsz n st) ∧
    (∀ env fuel n st st1, env.seekOk st.sIdx = true →
      random_loop env.write env.rand fuel fuel n (seekOkStep st)
        = some (true, st1) →
      random_pass env fuel n st = some (0, flushStep st1)) ∧
    (∀ env fuel buf bufsz n st st1, bufsz ≠ 0 → env.seekOk st.sIdx = true →
      pattern_loop env.write fuel buf bufsz fuel n (seekOkStep st)
        = some (true, st1) →
      pattern_pass env fuel buf bufsz n st = some (0, flushStep st1)) :=
  ⟨fun env g fuel st => spc_fd_wipe_flush_blind env g fuel st,
   fun env g fuel n st => random_pass_flush_blind env g fuel n st,
   fun env g fuel buf bufsz n st =>
     pattern_pass_flush_blind env g fuel buf bufsz n st,
   fun env fuel n st st1 hs hl =>
     random_pass_flush_success env fuel n st st1 hs hl,
   fun env fuel buf bufsz n st st1 hb hs hl =>
     pattern_pass_flush_success env fuel buf bufsz n st st1 hb hs hl⟩

/-- Chunk-loop result of one random pass, for the C8 witness. -/
def stC8 : St :=
  ((random_loop (envHappy 5).write (envHappy 5).rand 10 10 5
    (seekOkStep initSt)).getD (true, initSt)).2

theorem C8_witness :
    spc_fd_wipe { envHappy 5 with flushOk := fun i => false } 10 initSt
      = spc_fd_wipe (envHappy 5) 10 initSt ∧
    (envHappy 5).seekOk initSt.sIdx = true ∧
    random_loop (envHappy 5).write (envHappy 5).rand 10 10 5 (seekOkStep initSt)
      = some (true, stC8) ∧
    random_pass (envHappy 5) 10 5 initSt = some (0, flushStep stC8) := by
  have hl : random_loop (envHappy 5).write (envHappy 5).rand 10 10 5
      (seekOkStep initSt) = some (true, stC8) := rfl
  exact ⟨C8_flush_result_ignored.1 (envHappy 5) (fun i => false) 10 initSt,
    rfl, hl,
    C8_flush_result_ignored.2.2.2.1 (envHappy 5) 10 5 initSt stC8 rfl hl⟩

/-- C9: spc_fd_wipe never reads the file's existing bytes: from any two
initial states that differ only in stored content, the wipe returns the
same result and produces the identical event log, so the same seeks and
the same writes carrying the same data. -/
theorem C9_content_oblivious (env : SysEnv) (fuel : Nat) (st : St)
    (c1 c2 : Nat → Nat) :
    OR (spc_fd_wipe env fuel { st with content := c1 })
      (spc_fd_wipe env fuel { st with content := c2 }) :=
  spc_fd_wipe_or env fuel _ _ ⟨rfl, rfl, rfl, rfl, rfl, rfl⟩

/-- C10: the chunk loops of both pass primitives terminate whenever the
buffer size is positive and every inner reliable write returns, each
iteration consuming min(buffer size, remaining) > 0 bytes so that a fuel
budget beyond the byte count suffices; pattern_pass rejects a zero-length
buffer up front, before even seeking. -/
theorem C10_chunk_loops_terminate :
    (∀ w wdfuel buf bufsz fuel n st, 0 < bufsz →
      (∀ m st2, m ≤ bufsz → write_data w buf m st2 wdfuel ≠ none) →
      n < fuel → pattern_loop w wdfuel buf bufsz fuel n st ≠ none) ∧
    (∀ w rand wdfuel fuel n st,
      (∀ buf m st2, m ≤ SPC_WIPE_BUFSIZE →
        write_data w buf m st2 wdfuel ≠ none) →
      n < fuel → random_loop w rand wdfuel fuel n st ≠ none) ∧
    (∀ env fuel buf n st, pattern_pass env fuel buf 0 n st = some (-1, st)) := by
  refine ⟨?_, ?_, ?_⟩
  · intro w wdfuel buf bufsz fuel n st hbs hwd hlt
    exact pattern_loop_total w wdfuel buf bufsz hbs hwd fuel n st hlt
  · intro w rand wdfuel fuel n st hwd hlt
    exact random_loop_total w rand wdfuel hwd fuel n st hlt
  · intro env fuel buf n st
    rw [pattern_pass, if_pos rfl]

theorem C10_witness :
    0 < 3 ∧ 2 < 3 ∧
    pattern_loop wHappy 1 [1, 2, 3] 3 3 2 initSt ≠ none ∧
    random_loop wHappy (fun i n => List.replicate n 0) 1 3 2 initSt ≠ none ∧
    pattern_pass (envHappy 5) 10 [1, 2, 3] 0 7 initSt = some (-1, initSt) := by
  refine ⟨by decide, by decide, ?_, ?_,
    C10_chunk_loops_terminate.2.2 (envHappy 5) 10 [1, 2, 3] 7 initSt⟩
  · exact C10_chunk_loops_terminate.1 wHappy 1 [1, 2, 3] 3 3 2 initSt
      (by decide)
      (fun m st2 hm => write_data_happy [1, 2, 3] m st2
        (le_trans hm (by decide)))
      (by decide)
  · exact C10_chunk_loops_terminate.2.1 wHappy (fun i n => List.replicate n 0)
      1 3 2 initSt
      (fun buf m st2 hm => write_data_happy buf m st2
        (le_trans hm (by decide)))
      (by decide)
